import Mathlib

/-!
Verification of the monkers lexer and parser front end.

The Rust source is embedded shallowly:
* strings and byte buffers are lists of byte values (List Nat, each < 256 on
  ASCII inputs; the Rust code stores the input as a byte vector);
* the mutable Lexer and Parser structs become explicit state passing;
* while loops become fuelled recursions; every wrapper supplies a fuel that
  provably exceeds the number of iterations reachable from well-formed states;
* Result<T, String> together with the reachable panic (the unwrap in
  parse_integer_literal, parser.rs line 130) becomes the four-way PRes type;
  the distinct fuelOut constructor marks fuel exhaustion, a modelling artifact
  that is never hit at the supplied fuels on well-formed states.
-/

/-- The UTF-8 bytes of an ASCII string, as natural numbers: the Rust code
stores the source text via String::into_bytes (lexer.rs line 17). For the
ASCII strings used here the char codes coincide with the UTF-8 bytes. -/
def bytes (s : String) : List Nat := s.data.map (fun c => c.toNat)

/-- TokenType from lexer/token.rs lines 28-57, all 26 variants in source
order. -/
inductive TokenType where
  | Let
  | Ident
  | Int
  | Assign
  | Plus
  | Lparen
  | Rparen
  | Lbrace
  | Rbrace
  | Comma
  | Semicolon
  | Eof
  | Illegal
  | Function
  | Bang
  | Dash
  | GreaterThan
  | LesserThan
  | Equals
  | If
  | Else
  | Asterisk
  | ForwardSlash
  | NotEqual
  | False
  | True
  | Return
deriving DecidableEq, Repr

/-- Token from lexer/token.rs lines 3-7: a token type plus the literal text
(modelled as its bytes). -/
structure Token where
  token_type : TokenType
  literal : List Nat
deriving DecidableEq, Repr

/-- Token::new (lexer/token.rs lines 10-12); the token! macro expands to it. -/
def Token.new (token_type : TokenType) (literal : List Nat) : Token :=
  { token_type := token_type, literal := literal }

/-- The Lexer struct (lexer.rs lines 7-12). -/
structure Lexer where
  input : List Nat
  current_position : Nat
  read_position : Nat
  ch : Nat
deriving DecidableEq, Repr

/-- Lexer::read_char (lexer.rs lines 78-87): load the byte at read_position
(0 past the end), move current_position there, advance read_position. -/
def Lexer.read_char (l : Lexer) : Lexer :=
  { l with
    ch := if l.read_position ≥ l.input.length then 0 else l.input.getD l.read_position 0,
    current_position := l.read_position,
    read_position := l.read_position + 1 }

/-- Lexer::new (lexer.rs lines 15-24): zero-initialised state, then one
read_char. -/
def Lexer.new (input : List Nat) : Lexer :=
  Lexer.read_char { input := input, current_position := 0, read_position := 0, ch := 0 }

/-- Lexer::lookahead (lexer.rs lines 111-117). -/
def Lexer.lookahead (l : Lexer) : Nat :=
  if l.read_position ≥ l.input.length then 0 else l.input.getD l.read_position 0

/-- u8::is_ascii_whitespace: space, tab, newline, form feed, carriage
return. -/
def isWsByte (c : Nat) : Bool := c = 32 || c = 9 || c = 10 || c = 12 || c = 13

/-- u8::is_ascii_alphabetic. -/
def isAlphaByte (c : Nat) : Bool := (65 ≤ c && c ≤ 90) || (97 ≤ c && c ≤ 122)

/-- The condition of the read_ident loop (lexer.rs line 91): ASCII letter or
underscore. -/
def isIdentByte (c : Nat) : Bool := isAlphaByte c || c = 95

/-- u8::is_ascii_digit. -/
def isDigitByte (c : Nat) : Bool := 48 ≤ c && c ≤ 57

/-- The while loop of Lexer::skip_whitespace (lexer.rs lines 105-109),
fuelled. -/
def Lexer.skip_whitespace_fuel : Nat → Lexer → Lexer
  | 0, l => l
  | n + 1, l => if isWsByte l.ch then Lexer.skip_whitespace_fuel n l.read_char else l

/-- Lexer::skip_whitespace: the loop runs at most input.length + 1 times from
any reachable state, so that fuel is exact. -/
def Lexer.skip_whitespace (l : Lexer) : Lexer :=
  Lexer.skip_whitespace_fuel (l.input.length + 1) l

/-- The while loop of Lexer::read_ident (lexer.rs lines 91-93), fuelled. -/
def Lexer.ident_loop : Nat → Lexer → Lexer
  | 0, l => l
  | n + 1, l => if isIdentByte l.ch then Lexer.ident_loop n l.read_char else l

/-- Lexer::read_ident (lexer.rs lines 89-95): remember the start position,
scan the run, return the slice of the input between start and the final
current_position, together with the advanced lexer. -/
def Lexer.read_ident (l : Lexer) : List Nat × Lexer :=
  let prev_position := l.current_position
  let l2 := Lexer.ident_loop (l.input.length + 1) l
  ((l2.input.drop prev_position).take (l2.current_position - prev_position), l2)

/-- The while loop of Lexer::read_num (lexer.rs lines 99-101), fuelled. -/
def Lexer.num_loop : Nat → Lexer → Lexer
  | 0, l => l
  | n + 1, l => if isDigitByte l.ch then Lexer.num_loop n l.read_char else l

/-- Lexer::read_num (lexer.rs lines 97-103). -/
def Lexer.read_num (l : Lexer) : List Nat × Lexer :=
  let prev_position := l.current_position
  let l2 := Lexer.num_loop (l.input.length + 1) l
  ((l2.input.drop prev_position).take (l2.current_position - prev_position), l2)

/-- The keyword table of Lexer::next_token (lexer.rs lines 59-68): the match
on the scanned identifier text, in source order. -/
def lookup_ident (id : List Nat) : Token :=
  if id = bytes "let" then Token.new .Let (bytes "let")
  else if id = bytes "fn" then Token.new .Function (bytes "fn")
  else if id = bytes "else" then Token.new .Else (bytes "else")
  else if id = bytes "if" then Token.new .If (bytes "if")
  else if id = bytes "true" then Token.new .True (bytes "true")
  else if id = bytes "false" then Token.new .False (bytes "false")
  else if id = bytes "return" then Token.new .Return (bytes "return")
  else Token.new .Ident id

/-- Lexer::next_token (lexer.rs lines 26-76): skip whitespace, dispatch on
the current byte. Single and double character tokens fall through to the
trailing read_char (line 74); identifier and digit runs return early. The
byte ranges of the Rust match arms become an if chain (the arms are
disjoint). -/
def Lexer.next_token (l : Lexer) : Token × Lexer :=
  let l := l.skip_whitespace
  if l.ch = 61 then
    if l.lookahead = 61 then
      (Token.new .Equals (bytes "=="), l.read_char.read_char)
    else (Token.new .Assign (bytes "="), l.read_char)
  else if l.ch = 43 then (Token.new .Plus (bytes "+"), l.read_char)
  else if l.ch = 45 then (Token.new .Dash (bytes "-"), l.read_char)
  else if l.ch = 42 then (Token.new .Asterisk (bytes "*"), l.read_char)
  else if l.ch = 40 then (Token.new .Lparen (bytes "("), l.read_char)
  else if l.ch = 41 then (Token.new .Rparen (bytes ")"), l.read_char)
  else if l.ch = 123 then (Token.new .Lbrace [123], l.read_char)
  else if l.ch = 125 then (Token.new .Rbrace [125], l.read_char)
  else if l.ch = 44 then (Token.new .Comma (bytes ","), l.read_char)
  else if l.ch = 59 then (Token.new .Semicolon (bytes ";"), l.read_char)
  else if l.ch = 33 then
    if l.lookahead = 61 then
      (Token.new .NotEqual (bytes "!="), l.read_char.read_char)
    else (Token.new .Bang (bytes "!"), l.read_char)
  else if l.ch = 47 then (Token.new .ForwardSlash (bytes "/"), l.read_char)
  else if l.ch = 60 then (Token.new .LesserThan (bytes "<"), l.read_char)
  else if l.ch = 62 then (Token.new .GreaterThan (bytes ">"), l.read_char)
  else if 97 ≤ l.ch ∧ l.ch ≤ 122 then
    let p := l.read_ident
    (lookup_ident p.1, p.2)
  else if 48 ≤ l.ch ∧ l.ch ≤ 57 then
    let p := l.read_num
    (Token.new .Int p.1, p.2)
  else if l.ch = 0 then (Token.new .Eof [], l.read_char)
  else (Token.new .Illegal [], l.read_char)

/-- One step of the Iterator impl for Lexer (lexer.rs lines 120-131): call
next_token, stop (none) on an end-of-input token, otherwise yield it. -/
def Lexer.iter_next (l : Lexer) : Option (Token × Lexer) :=
  let p := l.next_token
  if p.1.token_type = TokenType.Eof then none else some p

/-- The sequence view of the lexer (repeatedly Lexer.iter_next until it stops),
fuelled. -/
def Lexer.tokensAux : Nat → Lexer → List Token
  | 0, _ => []
  | n + 1, l =>
    match l.iter_next with
    | none => []
    | some (t, l2) => t :: Lexer.tokensAux n l2

/-- All tokens the Iterator view of the lexer yields. Fuel input.length + 1
bounds the iteration count from every reachable state (each token consumes at
least one byte). -/
def Lexer.tokens (l : Lexer) : List Token :=
  Lexer.tokensAux (l.input.length + 1) l

/-- The lexer state reached after n direct next_token calls. -/
def Lexer.afterCalls (l : Lexer) : Nat → Lexer
  | 0 => l
  | n + 1 => (Lexer.afterCalls l n).next_token.2

/-- The token returned by the n-th direct next_token call (0-based). -/
def Lexer.nthToken (l : Lexer) (n : Nat) : Token :=
  (Lexer.afterCalls l n).next_token.1

/-- Identifier from ast.rs line 67: a newtype over the identifier text. -/
structure Identifier where
  name : List Nat
deriving DecidableEq, Repr

/-- Literal from ast.rs line 70 (raw text literal; never produced by the
current parser). -/
structure Literal where
  text : List Nat
deriving DecidableEq, Repr

/-- IntegerLiteral from ast.rs line 73: a parsed i64 value, modelled as Int;
the only producer, parse_i64 below, enforces the i64 range. -/
structure IntegerLiteral where
  val : Int
deriving DecidableEq, Repr

/-- Expression from ast.rs lines 22-31, all four variants in source order. -/
inductive Expression where
  | Id (id : Identifier)
  | Lit (lit : Literal)
  | Integer (int : IntegerLiteral)
  | Prefix (operator : List Nat) (right : Expression)
deriving DecidableEq, Repr

/-- LetStatement from ast.rs lines 80-85. -/
structure LetStatement where
  token : Token
  name : Identifier
  value : Expression
deriving DecidableEq, Repr

/-- ReturnStatement from ast.rs lines 93-97. -/
structure ReturnStatement where
  token : Token
  return_value : Expression
deriving DecidableEq, Repr

/-- ExpressionStatement from ast.rs lines 105-109. -/
structure ExpressionStatement where
  token : Token
  expression : Expression
deriving DecidableEq, Repr

/-- Statement from ast.rs lines 5-10. -/
inductive Statement where
  | Let (s : LetStatement)
  | Return (s : ReturnStatement)
  | Expression (s : ExpressionStatement)
deriving DecidableEq, Repr

/-- Program from ast.rs lines 44-46. -/
structure Program where
  statements : List Statement
deriving DecidableEq, Repr

/-- Decimal digit bytes of a natural number, fuelled (i64::to_string for
nonnegative values; fuel n + 1 always suffices since the value shrinks by a
factor of ten per step). -/
def natDigits : Nat → Nat → List Nat
  | 0, _ => []
  | f + 1, n => if n < 10 then [48 + n] else natDigits f (n / 10) ++ [48 + n % 10]

/-- i64::to_string as bytes: decimal digits, a leading minus sign when
negative. -/
def intToString (i : Int) : List Nat :=
  if i < 0 then 45 :: natDigits (i.natAbs + 1) i.natAbs else natDigits (i.natAbs + 1) i.natAbs

/-- Show for Expression (ast.rs lines 33-42): identifiers and raw literals
render their text, integers their decimal value, prefix expressions as
( operator operand ) with no spaces. -/
def Expression.show : Expression → List Nat
  | .Id id => id.name
  | .Lit lit => lit.text
  | .Integer int => intToString int.val
  | .Prefix operator right => bytes "(" ++ operator ++ Expression.show right ++ bytes ")"

/-- Show for LetStatement (ast.rs lines 87-91). -/
def LetStatement.show (s : LetStatement) : List Nat :=
  s.token.literal ++ bytes " " ++ s.name.name ++ bytes " = " ++ s.value.show ++ bytes ";"

/-- Show for ReturnStatement (ast.rs lines 99-103). -/
def ReturnStatement.show (s : ReturnStatement) : List Nat :=
  s.token.literal ++ bytes " " ++ s.return_value.show ++ bytes ";"

/-- Show for ExpressionStatement (ast.rs lines 111-115): the expression
alone, no trailing semicolon. -/
def ExpressionStatement.show (s : ExpressionStatement) : List Nat :=
  s.expression.show

/-- Show for Statement (ast.rs lines 12-20). -/
def Statement.show : Statement → List Nat
  | .Let s => s.show
  | .Return s => s.show
  | .Expression s => s.show

/-- Show for Program (ast.rs lines 56-64): concatenation of the statements,
no separators. -/
def Program.show (p : Program) : List Nat :=
  (p.statements.map Statement.show).flatten

/-- Precedence from parser/expression.rs lines 7-16. -/
inductive Precedence where
  | Lowest
  | Equals
  | LessGreater
  | Sum
  | Product
  | Prefix
  | Call
deriving DecidableEq, Repr

/-- The parse errors the parser can build, one constructor per format! call:
expectedIdent is parser.rs line 68, expectedAssign line 72, expectedSemicolon
line 84, noPrefixFn line 106. Each carries the offending token that the Rust
message interpolates. -/
inductive PError where
  | expectedIdent (got : Token)
  | expectedAssign (got : Token)
  | expectedSemicolon (got : Token)
  | noPrefixFn (got : Token)
deriving DecidableEq, Repr

/-- The outcome of a parsing operation: Result::Ok, Result::Err with a parse
error, the reachable panic (the unwrap in parse_integer_literal, parser.rs
line 130), and the fuel-exhaustion artifact of the embedding (never reached
at the wrapper fuels from well-formed states). -/
inductive PRes (α : Type) where
  | ok (val : α)
  | err (e : PError)
  | panic
  | fuelOut
deriving DecidableEq, Repr

/-- The Parser struct (parser.rs lines 13-19) without its two parse-function
tables: those are filled once in Parser::new and never mutated, so they are
modelled as the global tables prefix_parse_fns and infix_parse_fns below. -/
structure Parser where
  lexer : Lexer
  current_token : Token
  peek_token : Token
deriving DecidableEq, Repr

/-- Parser::next_token (parser.rs lines 39-42): shift peek into current, pull
a fresh peek from the lexer. -/
def Parser.next_token (p : Parser) : Parser :=
  let r := p.lexer.next_token
  { lexer := r.2, current_token := p.peek_token, peek_token := r.1 }

/-- Parser::new (parser.rs lines 22-37): both token cells start as Illegal
with empty literal, then two next_token calls prime them. -/
def Parser.new (lexer : Lexer) : Parser :=
  (Parser.mk lexer (Token.new .Illegal []) (Token.new .Illegal [])).next_token.next_token

/-- The three registered prefix parse behaviours (as function values in
parser.rs lines 125-142). -/
inductive PrefixBehaviour where
  | identifier
  | integer_literal
  | prefix_expression
deriving DecidableEq, Repr

/-- The prefix_parse_fns table as populated by Parser::new (parser.rs lines
30-33): Ident, Int, Bang and Dash, nothing else. -/
def prefix_parse_fns : TokenType → Option PrefixBehaviour
  | .Ident => some .identifier
  | .Int => some .integer_literal
  | .Bang => some .prefix_expression
  | .Dash => some .prefix_expression
  | _ => none

/-- The infix parse behaviours: none exist, the infix_parse_fns table is
never populated (Parser::new inserts nothing into it) and never consulted. -/
inductive InfixBehaviour where
deriving DecidableEq, Repr

/-- The infix_parse_fns table: empty (parser.rs line 28 creates it; no insert
ever follows). -/
def infix_parse_fns : TokenType → Option InfixBehaviour := fun _ => none

/-- str::parse::<i64>: an optional plus or minus sign (byte 43 or 45), then
at least one ASCII digit and nothing else, and the value must fit in i64;
none models Err(ParseIntError), on which the caller unwraps. -/
def parse_i64 (s : List Nat) : Option Int :=
  match s with
  | [] => none
  | c :: rest =>
    let sign : Int := if c = 45 then -1 else 1
    let digits : List Nat := if c = 43 ∨ c = 45 then rest else c :: rest
    if digits = [] then none
    else if digits.all (fun d => isDigitByte d) then
      let v : Int := sign * (digits.foldl (fun acc d => acc * 10 + (d - 48)) 0 : Nat)
      if -(2 ^ 63) ≤ v ∧ v ≤ 2 ^ 63 - 1 then some v else none
    else none

/-- parse_identifier (parser.rs lines 125-127). -/
def parse_identifier (p : Parser) : PRes (Expression × Parser) :=
  .ok (.Id (Identifier.mk p.current_token.literal), p)

/-- parse_integer_literal (parser.rs lines 129-132): parse the literal as
i64 and unwrap, so a malformed or overflowing literal panics. -/
def parse_integer_literal (p : Parser) : PRes (Expression × Parser) :=
  match parse_i64 p.current_token.literal with
  | some val => .ok (.Integer (IntegerLiteral.mk val), p)
  | none => .panic

/-- Parser::parse_expression (parser.rs lines 103-110) with
parse_prefix_expression (lines 134-142) inlined at its table entry, since the
two are mutually recursive through the table; fuel bounds the prefix nesting
depth. The precedence argument is received and never read, exactly as in the
source. -/
def parse_expression : Nat → Precedence → Parser → PRes (Expression × Parser)
  | 0, _, _ => .fuelOut
  | fuel + 1, _precedence, p =>
    match prefix_parse_fns p.current_token.token_type with
    | none => .err (.noPrefixFn p.current_token)
    | some .identifier => parse_identifier p
    | some .integer_literal => parse_integer_literal p
    | some .prefix_expression =>
      let operator := p.current_token.literal
      let p2 := p.next_token
      match parse_expression fuel Precedence.Prefix p2 with
      | .ok (right, p3) => .ok (.Prefix operator right, p3)
      | .err e => .err e
      | .panic => .panic
      | .fuelOut => .fuelOut

/-- Parser::parse_let_statement (parser.rs lines 62-87): keyword token, an
Ident (else expectedIdent), an Assign (else expectedAssign), an expression at
Lowest, then a mandatory Semicolon in peek (else expectedSemicolon), which is
consumed. -/
def parse_let_statement (fuel : Nat) (p : Parser) : PRes (Statement × Parser) :=
  let token := p.current_token
  let p := p.next_token
  match p.current_token with
  | Token.mk .Ident literal =>
    let identifier := Identifier.mk literal
    let p := p.next_token
    if p.current_token.token_type ≠ .Assign then .err (.expectedAssign p.current_token)
    else
      let p := p.next_token
      match parse_expression fuel .Lowest p with
      | .ok (expression, p) =>
        let statement := Statement.Let (LetStatement.mk token identifier expression)
        if p.peek_token.token_type = .Semicolon then .ok (statement, p.next_token)
        else .err (.expectedSemicolon p.peek_token)
      | .err e => .err e
      | .panic => .panic
      | .fuelOut => .fuelOut
  | _ => .err (.expectedIdent p.current_token)

/-- Parser::parse_return_statement (parser.rs lines 89-101): keyword token,
an expression at Lowest, then an optional Semicolon in peek, consumed when
present. -/
def parse_return_statement (fuel : Nat) (p : Parser) : PRes (Statement × Parser) :=
  let token := p.current_token
  let p := p.next_token
  match parse_expression fuel .Lowest p with
  | .ok (return_value, p) =>
    let statement := Statement.Return (ReturnStatement.mk token return_value)
    if p.peek_token.token_type = .Semicolon then .ok (statement, p.next_token)
    else .ok (statement, p)
  | .err e => .err e
  | .panic => .panic
  | .fuelOut => .fuelOut

/-- Parser::parse_expression_statement (parser.rs lines 112-122): an
expression at Lowest; the stored token is current_token as it stands after
the expression was parsed; then an optional Semicolon in peek, consumed when
present. -/
def parse_expression_statement (fuel : Nat) (p : Parser) : PRes (Statement × Parser) :=
  match parse_expression fuel .Lowest p with
  | .ok (expression, p) =>
    let statement := Statement.Expression (ExpressionStatement.mk p.current_token expression)
    if p.peek_token.token_type = .Semicolon then .ok (statement, p.next_token)
    else .ok (statement, p)
  | .err e => .err e
  | .panic => .panic
  | .fuelOut => .fuelOut

/-- Parser::parse_statement (parser.rs lines 54-60): dispatch on the current
token type. -/
def parse_statement (fuel : Nat) (p : Parser) : PRes (Statement × Parser) :=
  match p.current_token.token_type with
  | .Let => parse_let_statement fuel p
  | .Return => parse_return_statement fuel p
  | _ => parse_expression_statement fuel p

/-- The while loop of Parser::parse_program (parser.rs lines 44-52),
fuelled: while the current token is not Eof, parse one statement (the ?
operator propagates any error, discarding everything built so far), append
it, advance. The same fuel bounds the prefix nesting inside statements. -/
def parse_program_loop : Nat → Parser → PRes (List Statement)
  | 0, _ => .fuelOut
  | n + 1, p =>
    if p.current_token.token_type = .Eof then .ok []
    else
      match parse_statement (n + 1) p with
      | .ok (statement, p2) =>
        match parse_program_loop n p2.next_token with
        | .ok rest => .ok (statement :: rest)
        | .err e => .err e
        | .panic => .panic
        | .fuelOut => .fuelOut
      | .err e => .err e
      | .panic => .panic
      | .fuelOut => .fuelOut

/-- Parser::parse_program (parser.rs lines 44-52). The loop runs at most once
per token and the lexer produces at most input.length tokens before Eof, so
fuel input.length + 2 is never exhausted from a reachable state. -/
def Parser.parse_program (p : Parser) : PRes Program :=
  match parse_program_loop (p.lexer.input.length + 2) p with
  | .ok statements => .ok (Program.mk statements)
  | .err e => .err e
  | .panic => .panic
  | .fuelOut => .fuelOut

/-- The whole pipeline on a source text given as bytes: Lexer::new,
Parser::new, parse_program. -/
def parse_source (src : List Nat) : PRes Program :=
  (Parser.new (Lexer.new src)).parse_program

/-- The canonical form of a reachable lexer state: cursor at position k,
read_position one past it, ch the byte under the cursor (0 at or past the
end). Lexer.new produces this form at position 0, and every lexer operation
maps it to the same form at a larger position. -/
def at_pos (input : List Nat) (k : Nat) : Lexer :=
  { input := input, current_position := k, read_position := k + 1,
    ch := input.getD k 0 }


theorem getD_past_end (input : List Nat) (k : Nat) (h : input.length ≤ k) :
    input.getD k 0 = 0 :=
  List.getD_eq_default input 0 h

theorem read_char_at_pos (input : List Nat) (k : Nat) :
    (at_pos input k).read_char = at_pos input (k + 1) := by
  simp only [Lexer.read_char, at_pos]
  congr 1
  split
  · exact (getD_past_end input (k + 1) (by omega)).symm
  · rfl

theorem new_at_pos (input : List Nat) : Lexer.new input = at_pos input 0 := by
  simp only [Lexer.new, Lexer.read_char, at_pos]
  congr 1
  split
  · exact (getD_past_end input 0 (by omega)).symm
  · rfl

theorem lookahead_at_pos (input : List Nat) (k : Nat) :
    (at_pos input k).lookahead = input.getD (k + 1) 0 := by
  simp only [Lexer.lookahead, at_pos]
  split
  · exact (getD_past_end input (k + 1) (by omega)).symm
  · rfl

theorem getD_eq_headD_drop (input : List Nat) (k : Nat) :
    input.getD k 0 = (input.drop k).headD 0 := by
  rw [List.getD_eq_getElem?_getD]
  rw [show input[k]? = (input.drop k)[0]? from by rw [List.getElem?_drop]; norm_num]
  cases h : input.drop k <;> simp [h]

theorem at_pos_input (input : List Nat) (k : Nat) : (at_pos input k).input = input := rfl

theorem at_pos_ch (input : List Nat) (k : Nat) : (at_pos input k).ch = input.getD k 0 := rfl

/-- One byte of the remaining input, seen through a run decomposition. -/
theorem getD_of_run (input : List Nat) (k : Nat) (run rest : List Nat)
    (hdrop : input.drop k = run ++ rest) :
    input.getD (k + run.length) 0 = rest.headD 0 := by
  rw [getD_eq_headD_drop]
  rw [show input.drop (k + run.length) = (input.drop k).drop run.length from by
    rw [List.drop_drop]]
  rw [hdrop, List.drop_left]

/-- Advancing the run decomposition by one byte. -/
theorem drop_succ_of_run (input : List Nat) (k : Nat) (c : Nat) (t : List Nat)
    (hdrop : input.drop k = c :: t) : input.drop (k + 1) = t := by
  rw [show input.drop (k + 1) = (input.drop k).drop 1 from by rw [List.drop_drop]]
  rw [hdrop]
  rfl

theorem getD_head_of_run (input : List Nat) (k : Nat) (c : Nat) (t : List Nat)
    (hdrop : input.drop k = c :: t) : input.getD k 0 = c := by
  rw [getD_eq_headD_drop, hdrop]
  rfl

/-- The ident loop consumes exactly a maximal identifier run: if the
remaining input is an identifier run followed by a non-identifier byte (or
nothing), the loop stops right after the run. -/
theorem ident_loop_run (run : List Nat) : ∀ (input : List Nat) (k fuel : Nat)
    (rest : List Nat), input.drop k = run ++ rest →
    (∀ c ∈ run, isIdentByte c = true) →
    isIdentByte (rest.headD 0) = false →
    run.length < fuel →
    Lexer.ident_loop fuel (at_pos input k) = at_pos input (k + run.length) := by
  induction run with
  | nil =>
    intro input k fuel rest hdrop hall hstop hfuel
    obtain ⟨f, rfl⟩ : ∃ f, fuel = f + 1 := ⟨fuel - 1, by omega⟩
    unfold Lexer.ident_loop
    rw [at_pos_ch, getD_eq_headD_drop, hdrop, List.nil_append]
    rw [if_neg (by simpa using hstop)]
    simp
  | cons c t ih =>
    intro input k fuel rest hdrop hall hstop hfuel
    obtain ⟨f, rfl⟩ : ∃ f, fuel = f + 1 := ⟨fuel - 1, by omega⟩
    have hc : input.getD k 0 = c := getD_head_of_run input k c (t ++ rest) (by simpa using hdrop)
    have hct : isIdentByte c = true := hall c (by simp)
    unfold Lexer.ident_loop
    rw [at_pos_ch, hc]
    simp only [hct, if_true, read_char_at_pos]
    rw [ih input (k + 1) f rest
      (drop_succ_of_run input k c (t ++ rest) (by simpa using hdrop))
      (fun b hb => hall b (by simp [hb])) hstop (by simpa using hfuel)]
    congr 1
    simp
    omega

/-- The digit loop consumes exactly a maximal digit run. -/
theorem num_loop_run (run : List Nat) : ∀ (input : List Nat) (k fuel : Nat)
    (rest : List Nat), input.drop k = run ++ rest →
    (∀ c ∈ run, isDigitByte c = true) →
    isDigitByte (rest.headD 0) = false →
    run.length < fuel →
    Lexer.num_loop fuel (at_pos input k) = at_pos input (k + run.length) := by
  induction run with
  | nil =>
    intro input k fuel rest hdrop hall hstop hfuel
    obtain ⟨f, rfl⟩ : ∃ f, fuel = f + 1 := ⟨fuel - 1, by omega⟩
    unfold Lexer.num_loop
    rw [at_pos_ch, getD_eq_headD_drop, hdrop, List.nil_append]
    rw [if_neg (by simpa using hstop)]
    simp
  | cons c t ih =>
    intro input k fuel rest hdrop hall hstop hfuel
    obtain ⟨f, rfl⟩ : ∃ f, fuel = f + 1 := ⟨fuel - 1, by omega⟩
    have hc : input.getD k 0 = c := getD_head_of_run input k c (t ++ rest) (by simpa using hdrop)
    have hct : isDigitByte c = true := hall c (by simp)
    unfold Lexer.num_loop
    rw [at_pos_ch, hc]
    simp only [hct, if_true, read_char_at_pos]
    rw [ih input (k + 1) f rest
      (drop_succ_of_run input k c (t ++ rest) (by simpa using hdrop))
      (fun b hb => hall b (by simp [hb])) hstop (by simpa using hfuel)]
    congr 1
    simp
    omega

/-- The whitespace loop consumes exactly a maximal whitespace run. -/
theorem skip_fuel_run (run : List Nat) : ∀ (input : List Nat) (k fuel : Nat)
    (rest : List Nat), input.drop k = run ++ rest →
    (∀ c ∈ run, isWsByte c = true) →
    isWsByte (rest.headD 0) = false →
    run.length < fuel →
    Lexer.skip_whitespace_fuel fuel (at_pos input k) = at_pos input (k + run.length) := by
  induction run with
  | nil =>
    intro input k fuel rest hdrop hall hstop hfuel
    obtain ⟨f, rfl⟩ : ∃ f, fuel = f + 1 := ⟨fuel - 1, by omega⟩
    unfold Lexer.skip_whitespace_fuel
    rw [at_pos_ch, getD_eq_headD_drop, hdrop, List.nil_append]
    rw [if_neg (by simpa using hstop)]
    simp
  | cons c t ih =>
    intro input k fuel rest hdrop hall hstop hfuel
    obtain ⟨f, rfl⟩ : ∃ f, fuel = f + 1 := ⟨fuel - 1, by omega⟩
    have hc : input.getD k 0 = c := getD_head_of_run input k c (t ++ rest) (by simpa using hdrop)
    have hct : isWsByte c = true := hall c (by simp)
    unfold Lexer.skip_whitespace_fuel
    rw [at_pos_ch, hc]
    simp only [hct, if_true, read_char_at_pos]
    rw [ih input (k + 1) f rest
      (drop_succ_of_run input k c (t ++ rest) (by simpa using hdrop))
      (fun b hb => hall b (by simp [hb])) hstop (by simpa using hfuel)]
    congr 1
    simp
    omega

/-- A run decomposition of the remaining input bounds the run length by the
input length. -/
theorem run_length_le (input : List Nat) (k : Nat) (run rest : List Nat)
    (hdrop : input.drop k = run ++ rest) : run.length ≤ input.length := by
  have h1 : (input.drop k).length = input.length - k := List.length_drop k input
  have h2 : (run ++ rest).length = run.length + rest.length := List.length_append run rest
  rw [hdrop, h2] at h1
  omega

/-- Lexer::skip_whitespace with its wrapper fuel, on a whitespace-run
decomposition. -/
theorem skip_whitespace_run (input : List Nat) (k : Nat) (run rest : List Nat)
    (hdrop : input.drop k = run ++ rest)
    (hall : ∀ c ∈ run, isWsByte c = true)
    (hstop : isWsByte (rest.headD 0) = false) :
    (at_pos input k).skip_whitespace = at_pos input (k + run.length) := by
  unfold Lexer.skip_whitespace
  rw [at_pos_input]
  exact skip_fuel_run run input k (input.length + 1) rest hdrop hall hstop
    (by have := run_length_le input k run rest hdrop; omega)

/-- Lexer::skip_whitespace is the identity on a non-whitespace byte. -/
theorem skip_whitespace_no_ws (input : List Nat) (k : Nat)
    (h : isWsByte (input.getD k 0) = false) :
    (at_pos input k).skip_whitespace = at_pos input k := by
  have := skip_whitespace_run input k [] (input.drop k) (by simp)
    (by intro c hc; simp at hc)
    (by rwa [getD_eq_headD_drop] at h)
  simpa using this

/-- Lexer::read_ident on an identifier-run decomposition: returns exactly the
run and stops right after it. -/
theorem read_ident_run (input : List Nat) (k : Nat) (run rest : List Nat)
    (hdrop : input.drop k = run ++ rest)
    (hall : ∀ c ∈ run, isIdentByte c = true)
    (hstop : isIdentByte (rest.headD 0) = false) :
    (at_pos input k).read_ident = (run, at_pos input (k + run.length)) := by
  unfold Lexer.read_ident
  rw [at_pos_input]
  rw [ident_loop_run run input k (input.length + 1) rest hdrop hall hstop
    (by have := run_length_le input k run rest hdrop; omega)]
  simp only [at_pos_input, at_pos]
  rw [hdrop]
  congr 1
  rw [show k + run.length - k = run.length from by omega]
  exact List.take_left run rest

/-- Lexer::read_num on a digit-run decomposition. -/
theorem read_num_run (input : List Nat) (k : Nat) (run rest : List Nat)
    (hdrop : input.drop k = run ++ rest)
    (hall : ∀ c ∈ run, isDigitByte c = true)
    (hstop : isDigitByte (rest.headD 0) = false) :
    (at_pos input k).read_num = (run, at_pos input (k + run.length)) := by
  unfold Lexer.read_num
  rw [at_pos_input]
  rw [num_loop_run run input k (input.length + 1) rest hdrop hall hstop
    (by have := run_length_le input k run rest hdrop; omega)]
  simp only [at_pos_input, at_pos]
  rw [hdrop]
  congr 1
  rw [show k + run.length - k = run.length from by omega]
  exact List.take_left run rest

/-- Lexer::next_token at a semicolon byte. -/
theorem next_token_semicolon (input : List Nat) (k : Nat)
    (h : input.getD k 0 = 59) :
    (at_pos input k).next_token = (Token.new .Semicolon (bytes ";"), at_pos input (k + 1)) := by
  simp only [Lexer.next_token]
  rw [skip_whitespace_no_ws input k (by rw [h]; rfl)]
  rw [at_pos_ch, h]
  norm_num
  exact read_char_at_pos input k

/-- Lexer::next_token at an equals byte not followed by a second one. -/
theorem next_token_assign (input : List Nat) (k : Nat)
    (h : input.getD k 0 = 61) (h2 : input.getD (k + 1) 0 ≠ 61) :
    (at_pos input k).next_token = (Token.new .Assign (bytes "="), at_pos input (k + 1)) := by
  simp only [Lexer.next_token]
  rw [skip_whitespace_no_ws input k (by rw [h]; rfl)]
  rw [at_pos_ch, h, lookahead_at_pos]
  rw [if_pos rfl, if_neg h2]
  rw [read_char_at_pos]

/-- Lexer::next_token at a byte that is 0: the end-of-input token, and the
cursor still advances by one (the trailing read_char of lexer.rs line 74). -/
theorem next_token_eof (input : List Nat) (k : Nat)
    (h : input.getD k 0 = 0) :
    (at_pos input k).next_token = (Token.new .Eof [], at_pos input (k + 1)) := by
  simp only [Lexer.next_token]
  rw [skip_whitespace_no_ws input k (by rw [h]; rfl)]
  rw [at_pos_ch, h]
  norm_num
  exact read_char_at_pos input k

/-- Lexer::next_token at a lowercase letter: scans the maximal run of
letters and underscores and classifies it through the keyword table. -/
theorem next_token_ident (input : List Nat) (k : Nat) (c : Nat) (run2 rest : List Nat)
    (hdrop : input.drop k = (c :: run2) ++ rest)
    (h97 : 97 ≤ c) (h122 : c ≤ 122)
    (hall : ∀ b ∈ c :: run2, isIdentByte b = true)
    (hstop : isIdentByte (rest.headD 0) = false) :
    (at_pos input k).next_token =
      (lookup_ident (c :: run2), at_pos input (k + (c :: run2).length)) := by
  have hc : input.getD k 0 = c := getD_head_of_run input k c (run2 ++ rest) (by simpa using hdrop)
  simp only [Lexer.next_token]
  rw [skip_whitespace_no_ws input k (by rw [hc]; simp only [isWsByte]; norm_num; omega)]
  rw [at_pos_ch, hc]
  rw [if_neg (show ¬c = 61 by omega), if_neg (show ¬c = 43 by omega),
    if_neg (show ¬c = 45 by omega), if_neg (show ¬c = 42 by omega),
    if_neg (show ¬c = 40 by omega), if_neg (show ¬c = 41 by omega),
    if_neg (show ¬c = 123 by omega), if_neg (show ¬c = 125 by omega),
    if_neg (show ¬c = 44 by omega), if_neg (show ¬c = 59 by omega),
    if_neg (show ¬c = 33 by omega), if_neg (show ¬c = 47 by omega),
    if_neg (show ¬c = 60 by omega), if_neg (show ¬c = 62 by omega),
    if_pos (show 97 ≤ c ∧ c ≤ 122 from ⟨h97, h122⟩)]
  rw [read_ident_run input k (c :: run2) rest hdrop hall hstop]

/-- Lexer::next_token at a digit: scans the maximal digit run into an Int
token carrying the raw digits. -/
theorem next_token_int (input : List Nat) (k : Nat) (c : Nat) (run2 rest : List Nat)
    (hdrop : input.drop k = (c :: run2) ++ rest)
    (h48 : 48 ≤ c) (h57 : c ≤ 57)
    (hall : ∀ b ∈ c :: run2, isDigitByte b = true)
    (hstop : isDigitByte (rest.headD 0) = false) :
    (at_pos input k).next_token =
      (Token.new .Int (c :: run2), at_pos input (k + (c :: run2).length)) := by
  have hc : input.getD k 0 = c := getD_head_of_run input k c (run2 ++ rest) (by simpa using hdrop)
  simp only [Lexer.next_token]
  rw [skip_whitespace_no_ws input k (by rw [hc]; simp only [isWsByte]; norm_num; omega)]
  rw [at_pos_ch, hc]
  rw [if_neg (show ¬c = 61 by omega), if_neg (show ¬c = 43 by omega),
    if_neg (show ¬c = 45 by omega), if_neg (show ¬c = 42 by omega),
    if_neg (show ¬c = 40 by omega), if_neg (show ¬c = 41 by omega),
    if_neg (show ¬c = 123 by omega), if_neg (show ¬c = 125 by omega),
    if_neg (show ¬c = 44 by omega), if_neg (show ¬c = 59 by omega),
    if_neg (show ¬c = 33 by omega), if_neg (show ¬c = 47 by omega),
    if_neg (show ¬c = 60 by omega), if_neg (show ¬c = 62 by omega),
    if_neg (show ¬(97 ≤ c ∧ c ≤ 122) by omega),
    if_pos (show 48 ≤ c ∧ c ≤ 57 from ⟨h48, h57⟩)]
  rw [read_num_run input k (c :: run2) rest hdrop hall hstop]

/-- Lexer::next_token at an uppercase letter or an underscore: the byte falls
through every arm to the catch-all and becomes an Illegal token with empty
literal; no identifier run is scanned. -/
theorem next_token_illegal_upper (input : List Nat) (k : Nat)
    (h : (65 ≤ input.getD k 0 ∧ input.getD k 0 ≤ 90) ∨ input.getD k 0 = 95) :
    (at_pos input k).next_token = (Token.new .Illegal [], at_pos input (k + 1)) := by
  have hws : isWsByte (input.getD k 0) = false := by
    set c := input.getD k 0
    simp only [isWsByte]
    norm_num
    omega
  simp only [Lexer.next_token]
  rw [skip_whitespace_no_ws input k hws]
  rw [at_pos_ch]
  rw [if_neg (show ¬input.getD k 0 = 61 by omega), if_neg (show ¬input.getD k 0 = 43 by omega),
    if_neg (show ¬input.getD k 0 = 45 by omega), if_neg (show ¬input.getD k 0 = 42 by omega),
    if_neg (show ¬input.getD k 0 = 40 by omega), if_neg (show ¬input.getD k 0 = 41 by omega),
    if_neg (show ¬input.getD k 0 = 123 by omega), if_neg (show ¬input.getD k 0 = 125 by omega),
    if_neg (show ¬input.getD k 0 = 44 by omega), if_neg (show ¬input.getD k 0 = 59 by omega),
    if_neg (show ¬input.getD k 0 = 33 by omega), if_neg (show ¬input.getD k 0 = 47 by omega),
    if_neg (show ¬input.getD k 0 = 60 by omega), if_neg (show ¬input.getD k 0 = 62 by omega),
    if_neg (show ¬(97 ≤ input.getD k 0 ∧ input.getD k 0 ≤ 122) by omega),
    if_neg (show ¬(48 ≤ input.getD k 0 ∧ input.getD k 0 ≤ 57) by omega),
    if_neg (show ¬input.getD k 0 = 0 by omega)]
  rw [read_char_at_pos]

/-- Leading whitespace does not change the token next_token returns: the
first skip lands where a skip-free call would start. -/
theorem next_token_after_ws (input : List Nat) (k j : Nat)
    (hskip : (at_pos input k).skip_whitespace = at_pos input j)
    (hj : isWsByte (input.getD j 0) = false) :
    (at_pos input k).next_token = (at_pos input j).next_token := by
  simp only [Lexer.next_token]
  rw [hskip, skip_whitespace_no_ws input j hj]

/-- The head of what dropWhile leaves never satisfies the predicate, provided
the default byte 0 does not. -/
theorem headD_dropWhile_not (p : Nat → Bool) (l : List Nat) (h0 : p 0 = false) :
    p ((l.dropWhile p).headD 0) = false := by
  induction l with
  | nil => simpa
  | cons a t ih =>
    by_cases h : p a
    · simpa [List.dropWhile_cons, h] using ih
    · simp [List.dropWhile_cons, h]

/-- A nonzero byte under the cursor means the cursor is inside the buffer. -/
theorem getD_ne_zero_lt (input : List Nat) (k : Nat) (h : input.getD k 0 ≠ 0) :
    k < input.length := by
  by_contra hge
  exact h (getD_past_end input k (by omega))

/-- skip_whitespace always lands on a non-whitespace byte, at or after the
start. -/
theorem skip_whitespace_lands (input : List Nat) (k : Nat) :
    ∃ j, k ≤ j ∧ (at_pos input k).skip_whitespace = at_pos input j ∧
      isWsByte (input.getD j 0) = false := by
  have hdec := (List.takeWhile_append_dropWhile (p := isWsByte) (l := input.drop k)).symm
  refine ⟨k + (List.takeWhile isWsByte (input.drop k)).length, by omega,
    skip_whitespace_run input k _ (List.dropWhile isWsByte (input.drop k)) hdec
      (fun c hc => List.mem_takeWhile_imp hc)
      (headD_dropWhile_not isWsByte (input.drop k) rfl), ?_⟩
  rw [getD_of_run input k _ _ hdec]
  exact headD_dropWhile_not isWsByte (input.drop k) rfl

/-- Lexer::next_token at a lowercase letter, with no decomposition given:
there is a nonempty maximal run, it stays inside the buffer, and the token is
its keyword-table classification. -/
theorem next_token_ident_exists (input : List Nat) (j : Nat)
    (h97 : 97 ≤ input.getD j 0) (h122 : input.getD j 0 ≤ 122) :
    ∃ run, run ≠ [] ∧
      (at_pos input j).next_token = (lookup_ident run, at_pos input (j + run.length)) ∧
      j + run.length ≤ input.length := by
  have hjlt : j < input.length := getD_ne_zero_lt input j (by omega)
  have hdropj : input.drop j = input.getD j 0 :: input.drop (j + 1) := by
    rw [List.getD_eq_getElem input 0 hjlt]
    exact List.drop_eq_getElem_cons hjlt
  set b := input.getD j 0 with hb
  set run2 := List.takeWhile isIdentByte (input.drop (j + 1)) with hrun2
  set rest := List.dropWhile isIdentByte (input.drop (j + 1)) with hrest
  have hdec : input.drop j = (b :: run2) ++ rest := by
    rw [hdropj]
    simp only [List.cons_append]
    rw [hrun2, hrest, List.takeWhile_append_dropWhile]
  refine ⟨b :: run2, by simp, next_token_ident input j b run2 rest hdec h97 h122 ?_ ?_, ?_⟩
  · intro c hc
    rcases List.mem_cons.mp hc with rfl | hc2
    · simp only [isIdentByte, isAlphaByte, Bool.or_eq_true, decide_eq_true_eq,
        Bool.and_eq_true]
      omega
    · exact List.mem_takeWhile_imp hc2
  · exact headD_dropWhile_not isIdentByte (input.drop (j + 1)) rfl
  · have hlen2 : run2.length ≤ (input.drop (j + 1)).length := by
      rw [hrun2]
      exact (List.takeWhile_prefix isIdentByte).length_le
    have : (input.drop (j + 1)).length = input.length - (j + 1) := List.length_drop _ _
    simp only [List.length_cons]
    omega

/-- Lexer::next_token at a digit, with no decomposition given. -/
theorem next_token_int_exists (input : List Nat) (j : Nat)
    (h48 : 48 ≤ input.getD j 0) (h57 : input.getD j 0 ≤ 57) :
    ∃ run, run ≠ [] ∧
      (at_pos input j).next_token = (Token.new .Int run, at_pos input (j + run.length)) ∧
      j + run.length ≤ input.length := by
  have hjlt : j < input.length := getD_ne_zero_lt input j (by omega)
  have hdropj : input.drop j = input.getD j 0 :: input.drop (j + 1) := by
    rw [List.getD_eq_getElem input 0 hjlt]
    exact List.drop_eq_getElem_cons hjlt
  set b := input.getD j 0 with hb
  set run2 := List.takeWhile isDigitByte (input.drop (j + 1)) with hrun2
  set rest := List.dropWhile isDigitByte (input.drop (j + 1)) with hrest
  have hdec : input.drop j = (b :: run2) ++ rest := by
    rw [hdropj]
    simp only [List.cons_append]
    rw [hrun2, hrest, List.takeWhile_append_dropWhile]
  refine ⟨b :: run2, by simp, next_token_int input j b run2 rest hdec h48 h57 ?_ ?_, ?_⟩
  · intro c hc
    rcases List.mem_cons.mp hc with rfl | hc2
    · simp only [isDigitByte, Bool.and_eq_true, decide_eq_true_eq]
      omega
    · exact List.mem_takeWhile_imp hc2
  · exact headD_dropWhile_not isDigitByte (input.drop (j + 1)) rfl
  · have hlen2 : run2.length ≤ (input.drop (j + 1)).length := by
      rw [hrun2]
      exact (List.takeWhile_prefix isDigitByte).length_le
    have : (input.drop (j + 1)).length = input.length - (j + 1) := List.length_drop _ _
    simp only [List.length_cons]
    omega

/-- Forward progress of Lexer::next_token on every reachable state: the
result state sits strictly further right, and any non-Eof token was matched
at a byte inside the buffer. -/
theorem next_token_progress (input : List Nat) (k : Nat) :
    ∃ t m, (at_pos input k).next_token = (t, at_pos input m) ∧ k < m ∧
      (t.token_type ≠ TokenType.Eof → ∃ j, k ≤ j ∧ j < input.length ∧ j < m) := by
  obtain ⟨j, hkj, hsk, hjws⟩ := skip_whitespace_lands input k
  have hnt : (at_pos input k).next_token = (at_pos input j).next_token :=
    next_token_after_ws input k j hsk hjws
  rw [hnt]
  by_cases hid : 97 ≤ input.getD j 0 ∧ input.getD j 0 ≤ 122
  · obtain ⟨run, hne, heq, hle⟩ := next_token_ident_exists input j hid.1 hid.2
    have hpos : 0 < run.length := List.length_pos.mpr hne
    have hjlt : j < input.length := getD_ne_zero_lt input j (by omega)
    exact ⟨_, j + run.length, heq, by omega, fun _ => ⟨j, hkj, hjlt, by omega⟩⟩
  by_cases hdig : 48 ≤ input.getD j 0 ∧ input.getD j 0 ≤ 57
  · obtain ⟨run, hne, heq, hle⟩ := next_token_int_exists input j hdig.1 hdig.2
    have hpos : 0 < run.length := List.length_pos.mpr hne
    have hjlt : j < input.length := getD_ne_zero_lt input j (by omega)
    exact ⟨_, j + run.length, heq, by omega, fun _ => ⟨j, hkj, hjlt, by omega⟩⟩
  by_cases h0 : input.getD j 0 = 0
  · refine ⟨Token.new .Eof [], j + 1, next_token_eof input j h0, by omega, fun hne => ?_⟩
    exact absurd rfl hne
  have hjlt : j < input.length := getD_ne_zero_lt input j h0
  simp only [Lexer.next_token]
  rw [skip_whitespace_no_ws input j hjws]
  rw [at_pos_ch]
  rw [if_neg hid, if_neg hdig, if_neg h0, lookahead_at_pos]
  by_cases hB61 : input.getD j 0 = 61
  · rw [if_pos hB61]
    by_cases hB6161 : input.getD (j + 1) 0 = 61
    · rw [if_pos hB6161]
      exact ⟨_, j + 2, by rw [read_char_at_pos, read_char_at_pos], by omega,
        fun _ => ⟨j, hkj, hjlt, by omega⟩⟩
    · rw [if_neg hB6161]
      exact ⟨_, j + 1, by rw [read_char_at_pos], by omega, fun _ => ⟨j, hkj, hjlt, by omega⟩⟩
  rw [if_neg hB61]
  by_cases hB43 : input.getD j 0 = 43
  · rw [if_pos hB43]
    exact ⟨_, j + 1, by rw [read_char_at_pos], by omega, fun _ => ⟨j, hkj, hjlt, by omega⟩⟩
  rw [if_neg hB43]
  by_cases hB45 : input.getD j 0 = 45
  · rw [if_pos hB45]
    exact ⟨_, j + 1, by rw [read_char_at_pos], by omega, fun _ => ⟨j, hkj, hjlt, by omega⟩⟩
  rw [if_neg hB45]
  by_cases hB42 : input.getD j 0 = 42
  · rw [if_pos hB42]
    exact ⟨_, j + 1, by rw [read_char_at_pos], by omega, fun _ => ⟨j, hkj, hjlt, by omega⟩⟩
  rw [if_neg hB42]
  by_cases hB40 : input.getD j 0 = 40
  · rw [if_pos hB40]
    exact ⟨_, j + 1, by rw [read_char_at_pos], by omega, fun _ => ⟨j, hkj, hjlt, by omega⟩⟩
  rw [if_neg hB40]
  by_cases hB41 : input.getD j 0 = 41
  · rw [if_pos hB41]
    exact ⟨_, j + 1, by rw [read_char_at_pos], by omega, fun _ => ⟨j, hkj, hjlt, by omega⟩⟩
  rw [if_neg hB41]
  by_cases hB123 : input.getD j 0 = 123
  · rw [if_pos hB123]
    exact ⟨_, j + 1, by rw [read_char_at_pos], by omega, fun _ => ⟨j, hkj, hjlt, by omega⟩⟩
  rw [if_neg hB123]
  by_cases hB125 : input.getD j 0 = 125
  · rw [if_pos hB125]
    exact ⟨_, j + 1, by rw [read_char_at_pos], by omega, fun _ => ⟨j, hkj, hjlt, by omega⟩⟩
  rw [if_neg hB125]
  by_cases hB44 : input.getD j 0 = 44
  · rw [if_pos hB44]
    exact ⟨_, j + 1, by rw [read_char_at_pos], by omega, fun _ => ⟨j, hkj, hjlt, by omega⟩⟩
  rw [if_neg hB44]
  by_cases hB59 : input.getD j 0 = 59
  · rw [if_pos hB59]
    exact ⟨_, j + 1, by rw [read_char_at_pos], by omega, fun _ => ⟨j, hkj, hjlt, by omega⟩⟩
  rw [if_neg hB59]
  by_cases hB33 : input.getD j 0 = 33
  · rw [if_pos hB33]
    by_cases hB3361 : input.getD (j + 1) 0 = 61
    · rw [if_pos hB3361]
      exact ⟨_, j + 2, by rw [read_char_at_pos, read_char_at_pos], by omega,
        fun _ => ⟨j, hkj, hjlt, by omega⟩⟩
    · rw [if_neg hB3361]
      exact ⟨_, j + 1, by rw [read_char_at_pos], by omega, fun _ => ⟨j, hkj, hjlt, by omega⟩⟩
  rw [if_neg hB33]
  by_cases hB47 : input.getD j 0 = 47
  · rw [if_pos hB47]
    exact ⟨_, j + 1, by rw [read_char_at_pos], by omega, fun _ => ⟨j, hkj, hjlt, by omega⟩⟩
  rw [if_neg hB47]
  by_cases hB60 : input.getD j 0 = 60
  · rw [if_pos hB60]
    exact ⟨_, j + 1, by rw [read_char_at_pos], by omega, fun _ => ⟨j, hkj, hjlt, by omega⟩⟩
  rw [if_neg hB60]
  by_cases hB62 : input.getD j 0 = 62
  · rw [if_pos hB62]
    exact ⟨_, j + 1, by rw [read_char_at_pos], by omega, fun _ => ⟨j, hkj, hjlt, by omega⟩⟩
  rw [if_neg hB62]
  exact ⟨_, j + 1, by rw [read_char_at_pos], by omega, fun _ => ⟨j, hkj, hjlt, by omega⟩⟩

/-- next_token at or past the end of the buffer: the end-of-input token with
empty literal, while the cursor keeps sliding right. -/
theorem next_token_at_end (input : List Nat) (k : Nat) (h : input.length ≤ k) :
    (at_pos input k).next_token = (Token.new .Eof [], at_pos input (k + 1)) :=
  next_token_eof input k (getD_past_end input k h)

/-- Iterating next_token from a state at or past the end only slides the
cursor. -/
theorem afterCalls_at_end (input : List Nat) (k : Nat) (h : input.length ≤ k) :
    ∀ n, (at_pos input k).afterCalls n = at_pos input (k + n) := by
  intro n
  induction n with
  | zero => rfl
  | succ n ih =>
    show ((at_pos input k).afterCalls n).next_token.2 = _
    rw [ih, next_token_at_end input (k + n) (by omega)]
    show at_pos input (k + n + 1) = at_pos input (k + (n + 1))
    rw [Nat.add_assoc]

/-- afterCalls shifted by one from the front. -/
theorem afterCalls_shift (l : Lexer) (n : Nat) :
    l.afterCalls (n + 1) = (l.next_token.2).afterCalls n := by
  induction n with
  | zero => rfl
  | succ n ih =>
    show (l.afterCalls (n + 1)).next_token.2 = _
    rw [ih]
    rfl

/-- nthToken shifted by one from the front. -/
theorem nthToken_shift (l : Lexer) (n : Nat) :
    l.nthToken (n + 1) = (l.next_token.2).nthToken n := by
  unfold Lexer.nthToken
  rw [afterCalls_shift]

/-- The sequence view against the direct-call view, by induction on the fuel:
there is a first end-of-input index m, every directly returned token before
it is not end-of-input, and the sequence view is exactly those first m
tokens, in order. -/
theorem tokensAux_spec (fuel : Nat) : ∀ (input : List Nat) (k : Nat),
    input.length + 1 - k ≤ fuel →
    ∃ m, m ≤ input.length - k ∧
      (∀ i, i < m → ((at_pos input k).nthToken i).token_type ≠ TokenType.Eof) ∧
      ((at_pos input k).nthToken m).token_type = TokenType.Eof ∧
      Lexer.tokensAux fuel (at_pos input k) =
        (List.range m).map (at_pos input k).nthToken := by
  induction fuel with
  | zero =>
    intro input k hf
    have he := next_token_at_end input k (by omega)
    refine ⟨0, by omega, fun i hi => absurd hi (by omega), ?_, by simp [Lexer.tokensAux]⟩
    show ((at_pos input k).afterCalls 0).next_token.1.token_type = TokenType.Eof
    show (at_pos input k).next_token.1.token_type = TokenType.Eof
    rw [he]
    rfl
  | succ f ih =>
    intro input k hf
    obtain ⟨t, m2, heq, hkm, himp⟩ := next_token_progress input k
    have hnth0 : (at_pos input k).nthToken 0 = t := by
      show (at_pos input k).next_token.1 = t
      rw [heq]
    by_cases hEof : t.token_type = TokenType.Eof
    · refine ⟨0, by omega, fun i hi => absurd hi (by omega), ?_, ?_⟩
      · rw [hnth0, hEof]
      · show Lexer.tokensAux (f + 1) (at_pos input k) = []
        unfold Lexer.tokensAux Lexer.iter_next
        rw [heq]
        simp [hEof]
    · obtain ⟨j2, hj2k, hj2len, hj2m⟩ := himp hEof
      obtain ⟨m, hmle, hall, hEofm, htok⟩ := ih input m2 (by omega)
      have hshift : ∀ i, (at_pos input k).nthToken (i + 1) = (at_pos input m2).nthToken i := by
        intro i
        rw [nthToken_shift, heq]
      refine ⟨m + 1, by omega, ?_, ?_, ?_⟩
      · intro i hi
        match i with
        | 0 => rw [hnth0]; exact hEof
        | i + 1 =>
          rw [hshift i]
          exact hall i (by omega)
      · rw [hshift m]
        exact hEofm
      · show Lexer.tokensAux (f + 1) (at_pos input k) = _
        unfold Lexer.tokensAux Lexer.iter_next
        rw [heq]
        simp only [hEof, if_false]
        rw [htok, List.range_succ_eq_map]
        simp only [List.map_cons, List.map_map]
        rw [hnth0]
        refine congrArg (t :: ·) (List.map_eq_map_iff.mpr ?_)
        intro i hi
        show (at_pos input m2).nthToken i = (at_pos input k).nthToken (i + 1)
        rw [hshift i]

/-- Claim C2 (code_bug): the claim and the spec require that an Int literal
whose text exceeds the i64 range make parse_program return a recoverable
error, but parse_integer_literal (parser.rs line 130) calls unwrap on the
i64 conversion, so the literal 9223372036854775808 (= 2^63, one past
i64::MAX) panics the parser instead: the run of the embedded pipeline ends
in the panic outcome, and the underlying conversion is indeed a failure,
not a wrapped value. -/
theorem c2_overflow_panics :
    parse_source (bytes "9223372036854775808;") = PRes.panic ∧
    parse_i64 (bytes "9223372036854775808") = none := by decide

/-- Claim C3 (corrected): scanning of identifier runs. First conjunct: when
the byte under the cursor is a lowercase ASCII letter, next_token scans the
maximal run of ASCII letters (either case) and underscores and classifies it
through the keyword table, leaving the cursor right after the run. Second
conjunct: the keyword table maps exactly the seven keyword strings to their
keyword tokens. Third conjunct: every other run becomes an Ident token
carrying the run as literal. Fourth conjunct (the correction): a run starting
with an uppercase letter or an underscore is not scanned at all; that byte
alone becomes an Illegal token with empty literal. -/
theorem c3_ident_scanning :
    (∀ (input : List Nat) (k c : Nat) (run2 rest : List Nat),
      input.drop k = (c :: run2) ++ rest → 97 ≤ c → c ≤ 122 →
      (∀ b ∈ c :: run2, isIdentByte b = true) →
      isIdentByte (rest.headD 0) = false →
      (at_pos input k).next_token =
        (lookup_ident (c :: run2), at_pos input (k + (c :: run2).length))) ∧
    (lookup_ident (bytes "let") = Token.new TokenType.Let (bytes "let") ∧
      lookup_ident (bytes "fn") = Token.new TokenType.Function (bytes "fn") ∧
      lookup_ident (bytes "else") = Token.new TokenType.Else (bytes "else") ∧
      lookup_ident (bytes "if") = Token.new TokenType.If (bytes "if") ∧
      lookup_ident (bytes "true") = Token.new TokenType.True (bytes "true") ∧
      lookup_ident (bytes "false") = Token.new TokenType.False (bytes "false") ∧
      lookup_ident (bytes "return") = Token.new TokenType.Return (bytes "return")) ∧
    (∀ id : List Nat, id ≠ bytes "let" → id ≠ bytes "fn" → id ≠ bytes "else" →
      id ≠ bytes "if" → id ≠ bytes "true" → id ≠ bytes "false" → id ≠ bytes "return" →
      lookup_ident id = Token.new TokenType.Ident id) ∧
    (∀ (input : List Nat) (k : Nat),
      (65 ≤ input.getD k 0 ∧ input.getD k 0 ≤ 90) ∨ input.getD k 0 = 95 →
      (at_pos input k).next_token = (Token.new TokenType.Illegal [], at_pos input (k + 1))) := by
  refine ⟨?_, by decide, ?_, ?_⟩
  · intro input k c run2 rest hdrop h97 h122 hall hstop
    exact next_token_ident input k c run2 rest hdrop h97 h122 hall hstop
  · intro id h1 h2 h3 h4 h5 h6 h7
    unfold lookup_ident
    rw [if_neg h1, if_neg h2, if_neg h3, if_neg h4, if_neg h5, if_neg h6, if_neg h7]
  · intro input k h
    exact next_token_illegal_upper input k h

/-- Witness for claim C3: the run "ab" (with the mixed continuation "aB_c"
checked too) is scanned whole into an Ident token, and "_x" produces an
Illegal token at its first byte. -/
theorem c3_ident_scanning_witness :
    (at_pos (bytes "aB_c d") 0).next_token =
      (lookup_ident (97 :: [66, 95, 99]), at_pos (bytes "aB_c d") (0 + (97 :: [66, 95, 99]).length)) ∧
    lookup_ident (bytes "xy") = Token.new TokenType.Ident (bytes "xy") ∧
    (at_pos (bytes "_x") 0).next_token =
      (Token.new TokenType.Illegal [], at_pos (bytes "_x") (0 + 1)) :=
  ⟨c3_ident_scanning.1 (bytes "aB_c d") 0 97 [66, 95, 99] [32, 100] (by decide) (by decide)
      (by decide) (by decide) (by decide),
    c3_ident_scanning.2.2.1 (bytes "xy") (by decide) (by decide) (by decide) (by decide)
      (by decide) (by decide) (by decide),
    c3_ident_scanning.2.2.2 (bytes "_x") 0 (by decide)⟩

/-- Counterexample for claim C3 as frozen: on the input "_ab" the current
byte is an underscore, yet next_token yields an Illegal token with empty
literal, not an Ident token with literal "_ab"; so the claimed behaviour
for runs starting with an underscore (and likewise an uppercase letter,
input "Ab") does not hold. -/
theorem c3_counterexample :
    (Lexer.new (bytes "_ab")).next_token.1 = Token.new TokenType.Illegal [] ∧
    (Lexer.new (bytes "Ab")).next_token.1 = Token.new TokenType.Illegal [] ∧
    Token.new TokenType.Illegal [] ≠ Token.new TokenType.Ident (bytes "_ab") := by decide

/-- Claim C7 (confirmed): once the cursor is at or past the end of the
buffer (position input.length + k), every direct next_token call returns the
end-of-input token with empty literal, for any number of calls; and from any
reachable state, the Iterator view yields exactly the tokens of the direct
call sequence that precede its first end-of-input token, in order, finitely,
and never yields the end-of-input token itself. -/
theorem c7_eof_and_iterator_view : ∀ (input : List Nat) (k n : Nat),
    ((at_pos input (input.length + k)).nthToken n = Token.new TokenType.Eof []) ∧
    (∃ m, (∀ i, i < m → ((at_pos input k).nthToken i).token_type ≠ TokenType.Eof) ∧
      ((at_pos input k).nthToken m).token_type = TokenType.Eof ∧
      (at_pos input k).tokens = (List.range m).map (at_pos input k).nthToken) := by
  intro input k n
  constructor
  · show ((at_pos input (input.length + k)).afterCalls n).next_token.1 = _
    rw [afterCalls_at_end input (input.length + k) (by omega) n,
      next_token_at_end input (input.length + k + n) (by omega)]
  · obtain ⟨m, _, hall, hEofm, htok⟩ := tokensAux_spec (input.length + 1) input k (by omega)
    exact ⟨m, hall, hEofm, htok⟩

/-- Claim C8 (confirmed): from every reachable state, next_token strictly
advances the cursor (so each call terminates by construction of the
embedding, with the wrapper fuels provably sufficient), and the sequence
view is a finite list of at most input.length tokens. -/
theorem c8_progress_finite : ∀ (input : List Nat) (k : Nat),
    (∃ t m, (at_pos input k).next_token = (t, at_pos input m) ∧ k < m) ∧
    (at_pos input k).tokens.length ≤ input.length := by
  intro input k
  constructor
  · obtain ⟨t, m, heq, hkm, _⟩ := next_token_progress input k
    exact ⟨t, m, heq, hkm⟩
  · obtain ⟨m, hmle, _, _, htok⟩ := tokensAux_spec (input.length + 1) input k (by omega)
    unfold Lexer.tokens
    rw [at_pos_input, htok]
    simp only [List.length_map, List.length_range]
    omega

/-- Claim C9 (confirmed): the cursor invariant read_position =
current_position + 1 holds after Lexer::new, unconditionally after every
read_char, and after next_token from every reachable state (which is again
a reachable at_pos state); the transient zero-initialised state at
construction, before the first read_char, is the one state violating it. -/
theorem c9_cursor_invariant :
    (∀ input : List Nat, (Lexer.new input).read_position = (Lexer.new input).current_position + 1) ∧
    (∀ l : Lexer, l.read_char.read_position = l.read_char.current_position + 1) ∧
    (∀ (input : List Nat) (k : Nat), ∃ m,
      (at_pos input k).next_token.2 = at_pos input m ∧
      ((at_pos input k).next_token.2).read_position =
        ((at_pos input k).next_token.2).current_position + 1) ∧
    (∀ input : List Nat,
      ({ input := input, current_position := 0, read_position := 0, ch := 0 } : Lexer).read_position ≠
      ({ input := input, current_position := 0, read_position := 0, ch := 0 } : Lexer).current_position + 1) := by
  refine ⟨fun input => ?_, fun l => rfl, fun input k => ?_, fun input => by simp⟩
  · rw [new_at_pos]
    rfl
  · obtain ⟨t, m, heq, _, _⟩ := next_token_progress input k
    refine ⟨m, ?_, ?_⟩ <;> rw [heq]
    rfl

/-- Claim C10 (confirmed): the precedence argument of parse_expression is
dead in the current grammar: for every fuel, every parser state and any two
precedence levels, the results (value and final parser state alike) are
identical, because no code path reads the argument and the infix table
(infix_parse_fns, empty) is never consulted. -/
theorem c10_precedence_unused : ∀ (fuel : Nat) (p q : Precedence) (st : Parser),
    parse_expression fuel p st = parse_expression fuel q st := by
  intro fuel p q st
  cases fuel <;> rfl

/-- Claim C4 (confirmed): error atomicity of parse_program. If the statement
at the loop head fails, the loop returns exactly that error; if a statement
succeeds but the rest of the loop fails, the error is returned and the
successfully parsed statement is discarded (the err constructor carries only
the message, never statements); and a loop error surfaces unchanged through
parse_program, so no partial Program ever accompanies a diagnostic. -/
theorem c4_no_partial_program :
    (∀ (n : Nat) (p : Parser) (e : PError),
      p.current_token.token_type ≠ TokenType.Eof →
      parse_statement (n + 1) p = .err e →
      parse_program_loop (n + 1) p = .err e) ∧
    (∀ (n : Nat) (p : Parser) (e : PError) (s : Statement) (p2 : Parser),
      p.current_token.token_type ≠ TokenType.Eof →
      parse_statement (n + 1) p = .ok (s, p2) →
      parse_program_loop n p2.next_token = .err e →
      parse_program_loop (n + 1) p = .err e) ∧
    (∀ (p : Parser) (e : PError),
      parse_program_loop (p.lexer.input.length + 2) p = .err e →
      p.parse_program = .err e) := by
  refine ⟨?_, ?_, ?_⟩
  · intro n p e hne hstmt
    simp only [parse_program_loop, if_neg hne, hstmt]
  · intro n p e s p2 hne hstmt hloop
    simp only [parse_program_loop, if_neg hne, hstmt, hloop]
  · intro p e h
    simp only [Parser.parse_program, h]

/-- Witness for claim C4: on the source "5;let;" the first statement parses,
the second fails expecting an identifier after the let keyword, and both the
loop and parse_program surface exactly that error with nothing kept. -/
theorem c4_no_partial_program_witness :
    parse_program_loop 10 (Parser.new (Lexer.new (bytes "5;let;"))) =
      .err (PError.expectedIdent (Token.new TokenType.Semicolon (bytes ";"))) ∧
    (Parser.new (Lexer.new (bytes "5;let;"))).parse_program =
      .err (PError.expectedIdent (Token.new TokenType.Semicolon (bytes ";"))) :=
  ⟨c4_no_partial_program.2.1 9 (Parser.new (Lexer.new (bytes "5;let;")))
      (PError.expectedIdent (Token.new TokenType.Semicolon (bytes ";")))
      (Statement.Expression (ExpressionStatement.mk (Token.new TokenType.Int (bytes "5"))
        (Expression.Integer (IntegerLiteral.mk 5))))
      (Parser.new (Lexer.new (bytes "5;let;"))).next_token
      (by decide) (by decide) (by decide),
    c4_no_partial_program.2.2 (Parser.new (Lexer.new (bytes "5;let;")))
      (PError.expectedIdent (Token.new TokenType.Semicolon (bytes ";")))
      (by decide)⟩

/-- Claim C5 (confirmed): asymmetric semicolon handling. A let statement
whose expression is not followed by a Semicolon token fails with the
expectedSemicolon error naming the offending peek token (and succeeds,
consuming the semicolon, when it is there); a return statement and an
expression statement succeed either way, consuming the semicolon exactly
when it is present. -/
theorem c5_semicolon_asymmetry :
    (∀ (fuel : Nat) (p : Parser) (lit : List Nat) (v : Expression) (p4 : Parser),
      p.next_token.current_token = Token.mk TokenType.Ident lit →
      p.next_token.next_token.current_token.token_type = TokenType.Assign →
      parse_expression fuel .Lowest p.next_token.next_token.next_token = .ok (v, p4) →
      p4.peek_token.token_type ≠ TokenType.Semicolon →
      parse_let_statement fuel p = .err (.expectedSemicolon p4.peek_token)) ∧
    (∀ (fuel : Nat) (p : Parser) (lit : List Nat) (v : Expression) (p4 : Parser),
      p.next_token.current_token = Token.mk TokenType.Ident lit →
      p.next_token.next_token.current_token.token_type = TokenType.Assign →
      parse_expression fuel .Lowest p.next_token.next_token.next_token = .ok (v, p4) →
      p4.peek_token.token_type = TokenType.Semicolon →
      parse_let_statement fuel p = .ok
        (Statement.Let (LetStatement.mk p.current_token (Identifier.mk lit) v), p4.next_token)) ∧
    (∀ (fuel : Nat) (p : Parser) (v : Expression) (p4 : Parser),
      parse_expression fuel .Lowest p.next_token = .ok (v, p4) →
      parse_return_statement fuel p =
        (if p4.peek_token.token_type = TokenType.Semicolon then
          .ok (Statement.Return (ReturnStatement.mk p.current_token v), p4.next_token)
        else .ok (Statement.Return (ReturnStatement.mk p.current_token v), p4))) ∧
    (∀ (fuel : Nat) (p : Parser) (v : Expression) (p4 : Parser),
      parse_expression fuel .Lowest p = .ok (v, p4) →
      parse_expression_statement fuel p =
        (if p4.peek_token.token_type = TokenType.Semicolon then
          .ok (Statement.Expression (ExpressionStatement.mk p4.current_token v), p4.next_token)
        else .ok (Statement.Expression (ExpressionStatement.mk p4.current_token v), p4))) := by
  refine ⟨?_, ?_, ?_, ?_⟩
  · intro fuel p lit v p4 hid hassign hexpr hnos
    simp [parse_let_statement, hid, hassign, hexpr, hnos]
  · intro fuel p lit v p4 hid hassign hexpr hsemi
    simp [parse_let_statement, hid, hassign, hexpr, hsemi]
  · intro fuel p v p4 hexpr
    simp [parse_return_statement, hexpr]
  · intro fuel p v p4 hexpr
    simp [parse_expression_statement, hexpr]

/-- Witness for claim C5: "let x = 5" without semicolon fails naming the
expected Semicolon; "return 5;" succeeds consuming the semicolon; "5"
succeeds with no semicolon to consume. -/
theorem c5_semicolon_asymmetry_witness :
    parse_let_statement 7 (Parser.new (Lexer.new (bytes "let x = 5"))) =
      .err (PError.expectedSemicolon (Token.new TokenType.Eof [])) ∧
    parse_return_statement 7 (Parser.new (Lexer.new (bytes "return 5;"))) =
      .ok (Statement.Return (ReturnStatement.mk (Token.new TokenType.Return (bytes "return"))
          (Expression.Integer (IntegerLiteral.mk 5))),
        (Parser.new (Lexer.new (bytes "return 5;"))).next_token.next_token) ∧
    parse_expression_statement 7 (Parser.new (Lexer.new (bytes "5"))) =
      .ok (Statement.Expression (ExpressionStatement.mk (Token.new TokenType.Int (bytes "5"))
          (Expression.Integer (IntegerLiteral.mk 5))),
        Parser.new (Lexer.new (bytes "5"))) :=
  ⟨c5_semicolon_asymmetry.1 7 (Parser.new (Lexer.new (bytes "let x = 5"))) (bytes "x")
      (Expression.Integer (IntegerLiteral.mk 5))
      (Parser.new (Lexer.new (bytes "let x = 5"))).next_token.next_token.next_token
      (by decide) (by decide) (by decide) (by decide),
    c5_semicolon_asymmetry.2.2.1 7 (Parser.new (Lexer.new (bytes "return 5;")))
      (Expression.Integer (IntegerLiteral.mk 5))
      (Parser.new (Lexer.new (bytes "return 5;"))).next_token
      (by decide),
    c5_semicolon_asymmetry.2.2.2 7 (Parser.new (Lexer.new (bytes "5")))
      (Expression.Integer (IntegerLiteral.mk 5))
      (Parser.new (Lexer.new (bytes "5")))
      (by decide)⟩

/-- Successful parse_let_statement always returns a Let statement whose
stored token is the current token at entry. -/
theorem parse_let_statement_shape (fuel : Nat) (p : Parser) (st : Statement) (pr : Parser)
    (h : parse_let_statement fuel p = .ok (st, pr)) :
    ∃ ls : LetStatement, st = Statement.Let ls ∧ ls.token = p.current_token := by
  simp only [parse_let_statement] at h
  split at h
  · split at h
    · cases h
    · split at h
      · split at h
        · simp only [PRes.ok.injEq, Prod.mk.injEq] at h
          exact ⟨_, h.1.symm, rfl⟩
        · cases h
      · cases h
      · cases h
      · cases h
  · cases h

/-- Successful parse_return_statement always returns a Return statement
whose stored token is the current token at entry. -/
theorem parse_return_statement_shape (fuel : Nat) (p : Parser) (st : Statement) (pr : Parser)
    (h : parse_return_statement fuel p = .ok (st, pr)) :
    ∃ rs : ReturnStatement, st = Statement.Return rs ∧ rs.token = p.current_token := by
  simp only [parse_return_statement] at h
  split at h
  · split at h
    · simp only [PRes.ok.injEq, Prod.mk.injEq] at h
      exact ⟨_, h.1.symm, rfl⟩
    · simp only [PRes.ok.injEq, Prod.mk.injEq] at h
      exact ⟨_, h.1.symm, rfl⟩
  · cases h
  · cases h
  · cases h

/-- Successful parse_expression_statement always returns an Expression
statement. -/
theorem parse_expression_statement_shape (fuel : Nat) (p : Parser) (st : Statement) (pr : Parser)
    (h : parse_expression_statement fuel p = .ok (st, pr)) :
    ∃ es : ExpressionStatement, st = Statement.Expression es := by
  simp only [parse_expression_statement] at h
  split at h
  · split at h
    · simp only [PRes.ok.injEq, Prod.mk.injEq] at h
      exact ⟨_, h.1.symm⟩
    · simp only [PRes.ok.injEq, Prod.mk.injEq] at h
      exact ⟨_, h.1.symm⟩
  · cases h
  · cases h
  · cases h

/-- Claim C6 (corrected): for every successfully parsed statement, a Let
statement stores the let keyword token at which it started and a Return
statement the return keyword token; an expression statement stores the
current token as it stands after its expression was parsed (the last token
of the expression), which equals the first token of the expression only for
single-token expressions — not, as the claim states, in general. -/
theorem c6_statement_tokens :
    (∀ (fuel : Nat) (p : Parser) (st : Statement) (pr : Parser),
      parse_statement fuel p = .ok (st, pr) →
      (∀ ls : LetStatement, st = Statement.Let ls →
        ls.token = p.current_token ∧ p.current_token.token_type = TokenType.Let) ∧
      (∀ rs : ReturnStatement, st = Statement.Return rs →
        rs.token = p.current_token ∧ p.current_token.token_type = TokenType.Return)) ∧
    (∀ (fuel : Nat) (p : Parser) (v : Expression) (p4 : Parser),
      p.current_token.token_type ≠ TokenType.Let →
      p.current_token.token_type ≠ TokenType.Return →
      parse_expression fuel .Lowest p = .ok (v, p4) →
      parse_statement fuel p = .ok
        (Statement.Expression (ExpressionStatement.mk p4.current_token v),
          if p4.peek_token.token_type = TokenType.Semicolon then p4.next_token else p4)) := by
  constructor
  · intro fuel p st pr h
    unfold parse_statement at h
    split at h
    case _ heq =>
      obtain ⟨ls0, hst0, htok⟩ := parse_let_statement_shape fuel p st pr h
      constructor
      · intro ls hst
        rw [hst] at hst0
        cases hst0
        exact ⟨htok, heq⟩
      · intro rs hst
        rw [hst] at hst0
        cases hst0
    case _ heq =>
      obtain ⟨rs0, hst0, htok⟩ := parse_return_statement_shape fuel p st pr h
      constructor
      · intro ls hst
        rw [hst] at hst0
        cases hst0
      · intro rs hst
        rw [hst] at hst0
        cases hst0
        exact ⟨htok, heq⟩
    case _ =>
      obtain ⟨es0, hst0⟩ := parse_expression_statement_shape fuel p st pr h
      constructor
      · intro ls hst
        rw [hst] at hst0
        cases hst0
      · intro rs hst
        rw [hst] at hst0
        cases hst0
  · intro fuel p v p4 hL hR hexpr
    unfold parse_statement
    split
    case _ heq => exact absurd heq hL
    case _ heq => exact absurd heq hR
    case _ =>
      simp only [parse_expression_statement, hexpr]
      split <;> rfl

/-- Witness for claim C6: on "let x = 5;" the Let statement stores the let
keyword token; on "5" the expression statement stores the Int token, which
is the state of current_token after the one-token expression was parsed. -/
theorem c6_statement_tokens_witness :
    ((LetStatement.mk (Token.new TokenType.Let (bytes "let")) (Identifier.mk (bytes "x"))
        (Expression.Integer (IntegerLiteral.mk 5))).token =
      (Parser.new (Lexer.new (bytes "let x = 5;"))).current_token ∧
      (Parser.new (Lexer.new (bytes "let x = 5;"))).current_token.token_type = TokenType.Let) ∧
    parse_statement 7 (Parser.new (Lexer.new (bytes "5"))) =
      .ok (Statement.Expression (ExpressionStatement.mk (Token.new TokenType.Int (bytes "5"))
          (Expression.Integer (IntegerLiteral.mk 5))),
        Parser.new (Lexer.new (bytes "5"))) :=
  ⟨((c6_statement_tokens.1 7 (Parser.new (Lexer.new (bytes "let x = 5;")))
      (Statement.Let (LetStatement.mk (Token.new TokenType.Let (bytes "let"))
        (Identifier.mk (bytes "x")) (Expression.Integer (IntegerLiteral.mk 5))))
      ((Parser.new (Lexer.new (bytes "let x = 5;"))).next_token.next_token.next_token.next_token)
      (by decide)).1 _ rfl),
    c6_statement_tokens.2 7 (Parser.new (Lexer.new (bytes "5")))
      (Expression.Integer (IntegerLiteral.mk 5)) (Parser.new (Lexer.new (bytes "5")))
      (by decide) (by decide) (by decide)⟩

/-- Counterexample for claim C6 as frozen: parsing "!5;" succeeds, and the
expression statement stores the Int token for "5" (the last token of the
prefix expression), not the Bang token "!" that is the first token of the
expression. -/
theorem c6_counterexample :
    parse_source (bytes "!5;") = PRes.ok (Program.mk [Statement.Expression
      (ExpressionStatement.mk (Token.new TokenType.Int (bytes "5"))
        (Expression.Prefix (bytes "!") (Expression.Integer (IntegerLiteral.mk 5))))]) ∧
    Token.new TokenType.Int (bytes "5") ≠ Token.new TokenType.Bang (bytes "!") := by decide

/-- Every byte natDigits emits is an ASCII digit. -/
theorem natDigits_all_digits (f : Nat) : ∀ (n : Nat), ∀ c ∈ natDigits f n, isDigitByte c = true := by
  induction f with
  | zero =>
    intro n c hc
    simp [natDigits] at hc
  | succ f ih =>
    intro n c hc
    unfold natDigits at hc
    split at hc
    · simp only [List.mem_singleton] at hc
      subst hc
      simp only [isDigitByte, Bool.and_eq_true, decide_eq_true_eq]
      omega
    · rcases List.mem_append.mp hc with h1 | h2
      · exact ih _ c h1
      · simp only [List.mem_singleton] at h2
        subst h2
        simp only [isDigitByte, Bool.and_eq_true, decide_eq_true_eq]
        have := Nat.mod_lt n (show 0 < 10 from by norm_num)
        omega

/-- natDigits with positive fuel is nonempty. -/
theorem natDigits_ne_nil (f n : Nat) (hf : 0 < f) : natDigits f n ≠ [] := by
  obtain ⟨f2, rfl⟩ : ∃ f2, f = f2 + 1 := ⟨f - 1, by omega⟩
  unfold natDigits
  split
  · simp
  · simp

/-- With enough fuel, folding the decimal digits back recovers the value
(the fold is the one inside parse_i64). -/
theorem natDigits_val (f : Nat) : ∀ n : Nat, n < 10 ^ f →
    (natDigits f n).foldl (fun acc c => acc * 10 + (c - 48)) 0 = n := by
  induction f with
  | zero =>
    intro n hn
    simp at hn
    subst hn
    rfl
  | succ f ih =>
    intro n hn
    unfold natDigits
    split
    · simp only [List.foldl_cons, List.foldl_nil]
      omega
    · rw [List.foldl_append]
      simp only [List.foldl_cons, List.foldl_nil]
      rw [ih (n / 10) (by
        have h10 : (10 : Nat) ^ (f + 1) = 10 ^ f * 10 := by ring
        rw [h10] at hn
        exact Nat.div_lt_of_lt_mul (by omega))]
      omega

/-- The fuel natDigits is always called with suffices. -/
theorem lt_ten_pow_succ (n : Nat) : n < 10 ^ (n + 1) := by
  calc n < 2 ^ n * 2 := by
        have := Nat.lt_two_pow n
        omega
    _ = 2 ^ (n + 1) := by ring
    _ ≤ 10 ^ (n + 1) := Nat.pow_le_pow_left (by norm_num) (n + 1)

/-- Rust parse::<i64> is a left inverse of i64::to_string on the
representable nonnegative range. -/
theorem parse_i64_intToString (v : Int) (h0 : 0 ≤ v) (hmax : v ≤ 2 ^ 63 - 1) :
    parse_i64 (intToString v) = some v := by
  rw [intToString, if_neg (by omega)]
  have hvn : ((v.natAbs : Nat) : Int) = v := Int.natAbs_of_nonneg h0
  obtain ⟨c, t, hct⟩ : ∃ c t, natDigits (v.natAbs + 1) v.natAbs = c :: t := by
    cases hnd : natDigits (v.natAbs + 1) v.natAbs with
    | nil => exact absurd hnd (natDigits_ne_nil _ _ (by omega))
    | cons c t => exact ⟨c, t, rfl⟩
  have hcd : isDigitByte c = true :=
    natDigits_all_digits _ _ c (by rw [hct]; exact List.mem_cons_self c t)
  have hc48 : 48 ≤ c ∧ c ≤ 57 := by
    simpa [isDigitByte] using hcd
  rw [hct]
  simp only [parse_i64]
  rw [if_neg (show ¬(c = 43 ∨ c = 45) from by omega)]
  rw [if_neg (show ¬(c :: t = []) from by simp)]
  rw [if_pos (show ((c :: t).all fun d => isDigitByte d) = true from
    List.all_eq_true.mpr (fun d hd => natDigits_all_digits _ _ d (by rw [hct]; exact hd)))]
  rw [if_neg (show ¬c = 45 from by omega)]
  rw [show (c :: t) = natDigits (v.natAbs + 1) v.natAbs from hct.symm]
  rw [natDigits_val (v.natAbs + 1) v.natAbs (lt_ten_pow_succ v.natAbs)]
  have h63 : ((2 : Int) ^ 63) = 9223372036854775808 := by norm_num
  rw [if_pos (by constructor <;> omega)]
  simp only [one_mul, Option.some.injEq]
  exact hvn

/-- A non-keyword run is classified as a generic Ident token. -/
theorem lookup_ident_not_keyword (id : List Nat)
    (h1 : id ≠ bytes "let") (h2 : id ≠ bytes "fn") (h3 : id ≠ bytes "else")
    (h4 : id ≠ bytes "if") (h5 : id ≠ bytes "true") (h6 : id ≠ bytes "false")
    (h7 : id ≠ bytes "return") :
    lookup_ident id = Token.new TokenType.Ident id := by
  unfold lookup_ident
  rw [if_neg h1, if_neg h2, if_neg h3, if_neg h4, if_neg h5, if_neg h6, if_neg h7]

/-- One parser advance, written against a known lexer step. -/
theorem Parser.next_token_eq (lx lx2 : Lexer) (t cur pk : Token)
    (h : lx.next_token = (t, lx2)) :
    Parser.next_token (Parser.mk lx cur pk) = Parser.mk lx2 pk t := by
  unfold Parser.next_token
  rw [h]

/-- Parser::new, written against the first two lexer steps. -/
theorem Parser.new_eq (lx lx1 lx2 : Lexer) (t1 t2 : Token)
    (h1 : lx.next_token = (t1, lx1)) (h2 : lx1.next_token = (t2, lx2)) :
    Parser.new lx = Parser.mk lx2 t1 t2 := by
  unfold Parser.new
  rw [Parser.next_token_eq _ _ _ _ _ h1, Parser.next_token_eq _ _ _ _ _ h2]

/-- A whitespace byte (a single space, as the renderings emit) before a
token does not change the token. -/
theorem next_token_ws1 (input : List Nat) (k : Nat) (t : Token) (m : Nat)
    (hws : input.getD k 0 = 32)
    (hnws : isWsByte (input.getD (k + 1) 0) = false)
    (h : (at_pos input (k + 1)).next_token = (t, at_pos input m)) :
    (at_pos input k).next_token = (t, at_pos input m) := by
  have hklt : k < input.length := getD_ne_zero_lt input k (by omega)
  have hdropk : input.drop k = 32 :: input.drop (k + 1) := by
    rw [show (32 : Nat) = input.getD k 0 from hws.symm, List.getD_eq_getElem input 0 hklt]
    exact List.drop_eq_getElem_cons hklt
  have hskip : (at_pos input k).skip_whitespace = at_pos input (k + 1) := by
    have := skip_whitespace_run input k [32] (input.drop (k + 1)) (by simpa using hdropk)
      (by intro c hc; simp at hc; subst hc; rfl)
      (by rwa [← getD_eq_headD_drop])
    simpa using this
  rw [next_token_after_ws input k (k + 1) hskip hnws, h]

/-- The seven keyword byte strings. -/
def keywordBytes : List (List Nat) :=
  [bytes "let", bytes "fn", bytes "else", bytes "if", bytes "true", bytes "false",
    bytes "return"]

/-- An identifier in the form the lexer itself produces: nonempty, starting
with a lowercase ASCII letter, all letters or underscores, and not a
keyword. -/
def validIdent (s : List Nat) : Bool :=
  match s with
  | [] => false
  | c :: _ => decide (97 ≤ c) && decide (c ≤ 122) && s.all isIdentByte &&
      !(decide (s ∈ keywordBytes))

/-- An expression the parser can produce directly as a value: an identifier
in lexer form, or an integer literal in the representable nonnegative
range. -/
def canonicalValue : Expression → Bool
  | .Id id => validIdent id.name
  | .Integer i => decide (0 ≤ i.val) && decide (i.val ≤ 2 ^ 63 - 1)
  | _ => false

/-- A statement as parse_program itself stores it from canonically rendered
source: keyword tokens carry their keyword literal, names are identifiers in
lexer form, values are prefix-free canonical expressions, and an expression
statement carries the token its own reparse would store. -/
def canonicalStmt : Statement → Bool
  | .Let s => (s.token == Token.new .Let (bytes "let")) && validIdent s.name.name &&
      canonicalValue s.value
  | .Return s => (s.token == Token.new .Return (bytes "return")) &&
      canonicalValue s.return_value
  | .Expression s =>
    match s.expression with
    | .Id id => validIdent id.name && (s.token == Token.new .Ident id.name)
    | .Integer i => decide (0 ≤ i.val) && decide (i.val ≤ 2 ^ 63 - 1) &&
        (s.token == Token.new .Int (intToString i.val))
    | _ => false

/-- Unpacking validIdent. -/
theorem validIdent_spec (s : List Nat) (h : validIdent s = true) :
    ∃ c t, s = c :: t ∧ 97 ≤ c ∧ c ≤ 122 ∧ (∀ b ∈ s, isIdentByte b = true) ∧
      lookup_ident s = Token.new TokenType.Ident s := by
  match s, h with
  | c :: t, h =>
    simp only [validIdent, Bool.and_eq_true, decide_eq_true_eq, List.all_eq_true,
      Bool.not_eq_true', decide_eq_false_iff_not, keywordBytes,
      List.mem_cons, List.mem_singleton, not_or] at h
    obtain ⟨⟨⟨h97, h122⟩, hall⟩, hk1, hk2, hk3, hk4, hk5, hk6, hk7⟩ := h
    refine ⟨c, t, rfl, h97, h122, fun b hb => hall b (by simpa using hb), ?_⟩
    exact lookup_ident_not_keyword _ hk1 hk2 hk3 hk4 hk5 hk6 hk7.1

/-- A single-statement program parse: one statement, then end of input. -/
theorem parse_program_loop_single (N : Nat) (p : Parser) (st : Statement) (p2 : Parser)
    (hne : p.current_token.token_type ≠ TokenType.Eof)
    (hstmt : parse_statement (N + 1 + 1) p = .ok (st, p2))
    (hEof : p2.next_token.current_token.token_type = TokenType.Eof) :
    parse_program_loop (N + 1 + 1) p = .ok [st] := by
  show parse_program_loop (Nat.succ (N + 1)) p = _
  rw [parse_program_loop.eq_def]
  simp only []
  rw [if_neg hne, hstmt]
  show (match parse_program_loop (Nat.succ N) p2.next_token with
    | PRes.ok rest => PRes.ok (st :: rest)
    | PRes.err e => PRes.err e
    | PRes.panic => PRes.panic
    | PRes.fuelOut => PRes.fuelOut) = PRes.ok [st]
  rw [parse_program_loop.eq_def]
  simp only []
  rw [if_pos hEof]

/-- Parser::parse_program on a single-statement source. -/
theorem parse_program_single (p : Parser) (st : Statement) (p2 : Parser)
    (hne : p.current_token.token_type ≠ TokenType.Eof)
    (hstmt : parse_statement (p.lexer.input.length + 2) p = .ok (st, p2))
    (hEof : p2.next_token.current_token.token_type = TokenType.Eof) :
    p.parse_program = .ok (Program.mk [st]) := by
  unfold Parser.parse_program
  rw [parse_program_loop_single p.lexer.input.length p st p2 hne hstmt hEof]

/-- The token the lexer produces for the rendering of a canonical value. -/
def valueToken : Expression → Token
  | .Id id => Token.mk .Ident id.name
  | .Integer i => Token.mk .Int (intToString i.val)
  | _ => Token.mk .Illegal []

/-- The rendering of a canonical value lexes to exactly its value token when
followed by a byte that can extend neither an identifier nor a number run. -/
theorem lex_value (input : List Nat) (k : Nat) (rest : List Nat) (val : Expression)
    (hcv : canonicalValue val = true)
    (hdrop : input.drop k = val.show ++ rest)
    (hstop1 : isIdentByte (rest.headD 0) = false)
    (hstop2 : isDigitByte (rest.headD 0) = false) :
    (at_pos input k).next_token = (valueToken val, at_pos input (k + val.show.length)) := by
  cases val with
  | Id id =>
    obtain ⟨n⟩ := id
    simp only [canonicalValue] at hcv
    obtain ⟨c, t, hnct, h97, h122, hall, hlook⟩ := validIdent_spec n hcv
    have hshow : (Expression.Id (Identifier.mk n)).show = n := rfl
    rw [hshow] at hdrop
    have h := next_token_ident input k c t rest (by rw [hnct] at hdrop; simpa using hdrop)
      h97 h122 (by rw [← hnct]; exact hall) hstop1
    rw [← hnct] at h
    rw [hlook] at h
    simpa [valueToken, Token.new] using h
  | Integer i =>
    obtain ⟨v⟩ := i
    simp only [canonicalValue, Bool.and_eq_true, decide_eq_true_eq] at hcv
    obtain ⟨h0, hmax⟩ := hcv
    have hshow : (Expression.Integer (IntegerLiteral.mk v)).show = intToString v := rfl
    rw [hshow] at hdrop
    obtain ⟨c, t, hct⟩ : ∃ c t, intToString v = c :: t := by
      rw [intToString, if_neg (by omega)]
      cases hnd : natDigits (v.natAbs + 1) v.natAbs with
      | nil => exact absurd hnd (natDigits_ne_nil _ _ (by omega))
      | cons c t => exact ⟨c, t, rfl⟩
    have hdig : ∀ b ∈ intToString v, isDigitByte b = true := by
      intro b hb
      rw [intToString, if_neg (by omega)] at hb
      exact natDigits_all_digits _ _ b hb
    have hc : 48 ≤ c ∧ c ≤ 57 := by
      have := hdig c (by rw [hct]; exact List.mem_cons_self c t)
      simpa [isDigitByte] using this
    have h := next_token_int input k c t rest (by rw [hct] at hdrop; simpa using hdrop)
      hc.1 hc.2 (by rw [← hct]; exact hdig) hstop2
    rw [← hct] at h
    simpa [valueToken, Token.new] using h
  | Lit l => simp [canonicalValue] at hcv
  | Prefix o r => simp [canonicalValue] at hcv

/-- Parsing one canonical value expression: the registered prefix behaviour
returns the value and leaves the parser untouched. -/
theorem parse_value (fuel : Nat) (lx : Lexer) (pk : Token) (val : Expression)
    (hcv : canonicalValue val = true) :
    parse_expression (fuel + 1) .Lowest (Parser.mk lx (valueToken val) pk) =
      .ok (val, Parser.mk lx (valueToken val) pk) := by
  cases val with
  | Id id =>
    rw [parse_expression.eq_def]
    simp [valueToken, prefix_parse_fns, parse_identifier]
  | Integer i =>
    obtain ⟨v⟩ := i
    simp only [canonicalValue, Bool.and_eq_true, decide_eq_true_eq] at hcv
    rw [parse_expression.eq_def]
    simp only [valueToken, prefix_parse_fns]
    simp [parse_integer_literal, parse_i64_intToString v hcv.1 hcv.2]
  | Lit l => simp [canonicalValue] at hcv
  | Prefix o r => simp [canonicalValue] at hcv

/-- The expression-statement case of the round trip: a single canonical
value as the whole program. -/
theorem c1_case_expr (val : Expression) (hcv : canonicalValue val = true) :
    parse_source (Program.mk [Statement.Expression
        (ExpressionStatement.mk (valueToken val) val)]).show =
      PRes.ok (Program.mk [Statement.Expression (ExpressionStatement.mk (valueToken val) val)]) := by
  have hshow : (Program.mk [Statement.Expression
      (ExpressionStatement.mk (valueToken val) val)]).show = val.show := by
    simp [Program.show, Statement.show, ExpressionStatement.show]
  rw [hshow]
  have t1 : (at_pos val.show 0).next_token =
      (valueToken val, at_pos val.show val.show.length) := by
    have h := lex_value val.show 0 [] val hcv (by simp) rfl rfl
    simpa using h
  have t2 : (at_pos val.show val.show.length).next_token =
      (Token.new .Eof [], at_pos val.show (val.show.length + 1)) :=
    next_token_at_end _ _ (le_refl _)
  have t3 : (at_pos val.show (val.show.length + 1)).next_token =
      (Token.new .Eof [], at_pos val.show (val.show.length + 2)) :=
    next_token_at_end _ _ (by omega)
  have hP0 : Parser.new (Lexer.new val.show) =
      Parser.mk (at_pos val.show (val.show.length + 1)) (valueToken val) (Token.new .Eof []) := by
    rw [new_at_pos]
    exact Parser.new_eq _ _ _ _ _ t1 t2
  have hexpr := parse_value (val.show.length + 1) (at_pos val.show (val.show.length + 1))
    (Token.new .Eof []) val hcv
  have hne : (valueToken val).token_type ≠ TokenType.Eof := by
    cases val <;> simp [valueToken]
  unfold parse_source
  rw [hP0]
  refine parse_program_single _ _
    (Parser.mk (at_pos val.show (val.show.length + 1)) (valueToken val) (Token.new .Eof [])) ?_ ?_ ?_
  · exact hne
  · show parse_statement ((at_pos val.show (val.show.length + 1)).input.length + 2) _ = _
    rw [show (at_pos val.show (val.show.length + 1)).input.length + 2 =
      val.show.length + 1 + 1 from by rw [at_pos_input]]
    have hdisp : parse_statement (val.show.length + 1 + 1)
        (Parser.mk (at_pos val.show (val.show.length + 1)) (valueToken val) (Token.new .Eof [])) =
        parse_expression_statement (val.show.length + 1 + 1)
        (Parser.mk (at_pos val.show (val.show.length + 1)) (valueToken val) (Token.new .Eof [])) := by
      cases val <;> simp [valueToken, parse_statement]
    rw [hdisp]
    simp only [parse_expression_statement, hexpr]
    simp [Token.new]
  · rw [Parser.next_token_eq _ _ _ _ _ t3]
    rfl

/-- The rendering of a canonical value starts with a non-whitespace byte. -/
theorem canonicalValue_show_head (val : Expression) (hcv : canonicalValue val = true) :
    ∃ c t, val.show = c :: t ∧ isWsByte c = false := by
  cases val with
  | Id id =>
    obtain ⟨n⟩ := id
    simp only [canonicalValue] at hcv
    obtain ⟨c, t, hnct, h97, h122, _, _⟩ := validIdent_spec n hcv
    refine ⟨c, t, hnct, ?_⟩
    simp only [isWsByte]
    norm_num
    omega
  | Integer i =>
    obtain ⟨v⟩ := i
    simp only [canonicalValue, Bool.and_eq_true, decide_eq_true_eq] at hcv
    obtain ⟨c, t, hct⟩ : ∃ c t, intToString v = c :: t := by
      rw [intToString, if_neg (by omega)]
      cases hnd : natDigits (v.natAbs + 1) v.natAbs with
      | nil => exact absurd hnd (natDigits_ne_nil _ _ (by omega))
      | cons c t => exact ⟨c, t, rfl⟩
    have hcd : isDigitByte c = true := by
      have hmem : c ∈ intToString v := by rw [hct]; exact List.mem_cons_self c t
      rw [intToString, if_neg (by omega)] at hmem
      exact natDigits_all_digits _ _ c hmem
    have hc : 48 ≤ c ∧ c ≤ 57 := by simpa [isDigitByte] using hcd
    refine ⟨c, t, hct, ?_⟩
    simp only [isWsByte]
    norm_num
    omega
  | Lit l => simp [canonicalValue] at hcv
  | Prefix o r => simp [canonicalValue] at hcv

/-- The return-statement case of the round trip. -/
theorem c1_case_return (val : Expression) (hcv : canonicalValue val = true) :
    parse_source (Program.mk [Statement.Return
        (ReturnStatement.mk (Token.new .Return (bytes "return")) val)]).show =
      PRes.ok (Program.mk [Statement.Return
        (ReturnStatement.mk (Token.new .Return (bytes "return")) val)]) := by
  have hshow : (Program.mk [Statement.Return
      (ReturnStatement.mk (Token.new .Return (bytes "return")) val)]).show =
      114 :: 101 :: 116 :: 117 :: 114 :: 110 :: 32 :: (val.show ++ [59]) := by
    simp [Program.show, Statement.show, ReturnStatement.show, Token.new, bytes]
  rw [hshow]
  set src := 114 :: 101 :: 116 :: 117 :: 114 :: 110 :: 32 :: (val.show ++ [59]) with hsrc
  obtain ⟨c, t, hvct, hvws⟩ := canonicalValue_show_head val hcv
  have hd7 : src.drop 7 = val.show ++ [59] := rfl
  have hlen : src.length = 8 + val.show.length := by
    rw [hsrc]
    simp [List.length_append]
    omega
  have t1 : (at_pos src 0).next_token =
      (Token.new .Return (bytes "return"), at_pos src 6) := by
    have h := next_token_ident src 0 114 [101, 116, 117, 114, 110] (32 :: (val.show ++ [59]))
      (by rw [hsrc]; rfl) (by norm_num) (by norm_num) (by decide) (by rfl)
    rw [show lookup_ident (114 :: [101, 116, 117, 114, 110]) =
      Token.new .Return (bytes "return") from by decide] at h
    simpa using h
  have t2 : (at_pos src 6).next_token = (valueToken val, at_pos src (7 + val.show.length)) := by
    refine next_token_ws1 src 6 _ _ (by rfl) ?_ ?_
    · rw [show src.getD (6 + 1) 0 = c from getD_head_of_run src 7 c (t ++ [59])
        (by rw [hd7, hvct]; rfl)]
      exact hvws
    · have h := lex_value src 7 [59] val hcv hd7 (by rfl) (by rfl)
      simpa using h
  have t3 : (at_pos src (7 + val.show.length)).next_token =
      (Token.new .Semicolon (bytes ";"), at_pos src (7 + val.show.length + 1)) := by
    refine next_token_semicolon src (7 + val.show.length) ?_
    rw [show (7 : Nat) + val.show.length = 7 + val.show.length from rfl]
    have := getD_of_run src 7 val.show [59] hd7
    simpa using this
  have t4 : (at_pos src (7 + val.show.length + 1)).next_token =
      (Token.new .Eof [], at_pos src (7 + val.show.length + 1 + 1)) :=
    next_token_at_end src _ (by omega)
  have t5 : (at_pos src (7 + val.show.length + 1 + 1)).next_token =
      (Token.new .Eof [], at_pos src (7 + val.show.length + 1 + 1 + 1)) :=
    next_token_at_end src _ (by omega)
  have hP0 : Parser.new (Lexer.new src) =
      Parser.mk (at_pos src (7 + val.show.length)) (Token.new .Return (bytes "return"))
        (valueToken val) := by
    rw [new_at_pos]
    exact Parser.new_eq _ _ _ _ _ t1 t2
  unfold parse_source
  rw [hP0]
  refine parse_program_single _ _
    (Parser.mk (at_pos src (7 + val.show.length + 1 + 1)) (Token.new .Semicolon (bytes ";"))
      (Token.new .Eof [])) ?_ ?_ ?_
  · simp [Token.new]
  · show parse_statement ((at_pos src (7 + val.show.length)).input.length + 2) _ = _
    rw [show (at_pos src (7 + val.show.length)).input.length + 2 =
      (8 + val.show.length + 1) + 1 from by rw [at_pos_input]; omega]
    have hdisp : parse_statement ((8 + val.show.length + 1) + 1)
        (Parser.mk (at_pos src (7 + val.show.length)) (Token.new .Return (bytes "return"))
          (valueToken val)) =
        parse_return_statement ((8 + val.show.length + 1) + 1)
        (Parser.mk (at_pos src (7 + val.show.length)) (Token.new .Return (bytes "return"))
          (valueToken val)) := by
      simp [parse_statement, Token.new]
    rw [hdisp]
    simp only [parse_return_statement]
    rw [Parser.next_token_eq _ _ _ _ _ t3]
    rw [parse_value ((8 + val.show.length + 1)) (at_pos src (7 + val.show.length + 1))
      (Token.new .Semicolon (bytes ";")) val hcv]
    simp only [Token.new]
    rw [Parser.next_token_eq _ _ _ _ _ t4]
    simp [Token.new]
  · rw [Parser.next_token_eq _ _ _ _ _ t5]
    rfl

/-- The let-statement case of the round trip. -/
theorem c1_case_let (n : List Nat) (val : Expression)
    (hvid : validIdent n = true) (hcv : canonicalValue val = true) :
    parse_source (Program.mk [Statement.Let
        (LetStatement.mk (Token.new .Let (bytes "let")) (Identifier.mk n) val)]).show =
      PRes.ok (Program.mk [Statement.Let
        (LetStatement.mk (Token.new .Let (bytes "let")) (Identifier.mk n) val)]) := by
  obtain ⟨cn, tn, hnct, h97, h122, hall, hlook⟩ := validIdent_spec n hvid
  obtain ⟨cv, tv, hvct, hvws⟩ := canonicalValue_show_head val hcv
  have hshow : (Program.mk [Statement.Let
      (LetStatement.mk (Token.new .Let (bytes "let")) (Identifier.mk n) val)]).show =
      108 :: 101 :: 116 :: 32 :: (n ++ (32 :: 61 :: 32 :: (val.show ++ [59]))) := by
    simp [Program.show, Statement.show, LetStatement.show, Token.new, bytes]
  rw [hshow]
  set src := 108 :: 101 :: 116 :: 32 :: (n ++ (32 :: 61 :: 32 :: (val.show ++ [59]))) with hsrc
  set L := n.length with hL
  set M := val.show.length with hM
  have d4 : src.drop 4 = n ++ (32 :: 61 :: 32 :: (val.show ++ [59])) := rfl
  have dmid : src.drop (4 + L) = 32 :: 61 :: 32 :: (val.show ++ [59]) := by
    rw [show src.drop (4 + L) = (src.drop 4).drop L from by rw [List.drop_drop]]
    rw [d4, hL, List.drop_left]
  have d2 : src.drop (4 + L + 1) = 61 :: 32 :: (val.show ++ [59]) :=
    drop_succ_of_run src (4 + L) 32 _ dmid
  have d3 : src.drop (4 + L + 1 + 1) = 32 :: (val.show ++ [59]) :=
    drop_succ_of_run src (4 + L + 1) 61 _ d2
  have dv : src.drop (4 + L + 1 + 1 + 1) = val.show ++ [59] :=
    drop_succ_of_run src (4 + L + 1 + 1) 32 _ d3
  have hlen : src.length = 4 + L + 1 + 1 + 1 + M + 1 := by
    rw [hsrc]
    simp [List.length_append, hL, hM]
    omega
  have t1 : (at_pos src 0).next_token = (Token.new .Let (bytes "let"), at_pos src 3) := by
    have h := next_token_ident src 0 108 [101, 116] (32 :: (n ++ (32 :: 61 :: 32 :: (val.show ++ [59]))))
      (by rw [hsrc]; rfl) (by norm_num) (by norm_num) (by decide) (by rfl)
    rw [show lookup_ident (108 :: [101, 116]) = Token.new .Let (bytes "let") from by decide] at h
    simpa using h
  have t2 : (at_pos src 3).next_token = (Token.new .Ident n, at_pos src (4 + L)) := by
    refine next_token_ws1 src 3 _ _ (by rfl) ?_ ?_
    · rw [show src.getD (3 + 1) 0 = cn from getD_head_of_run src 4 cn
        (tn ++ (32 :: 61 :: 32 :: (val.show ++ [59]))) (by rw [d4, hnct]; rfl)]
      simp only [isWsByte]
      norm_num
      omega
    · have h := next_token_ident src 4 cn tn (32 :: 61 :: 32 :: (val.show ++ [59]))
        (by rw [d4, hnct]) h97 h122 (by rw [← hnct]; exact hall) (by rfl)
      rw [← hnct] at h
      rw [hlook] at h
      have harith : 4 + n.length = 4 + L := by rw [hL]
      rw [harith] at h
      simpa using h
  have t3 : (at_pos src (4 + L)).next_token =
      (Token.new .Assign (bytes "="), at_pos src (4 + L + 1 + 1)) := by
    refine next_token_ws1 src (4 + L) _ _ (getD_head_of_run src (4 + L) 32 _ dmid) ?_ ?_
    · rw [getD_head_of_run src (4 + L + 1) 61 _ d2]
      rfl
    · exact next_token_assign src (4 + L + 1) (getD_head_of_run src (4 + L + 1) 61 _ d2)
        (by rw [getD_head_of_run src (4 + L + 1 + 1) 32 _ d3]; norm_num)
  have t4 : (at_pos src (4 + L + 1 + 1)).next_token =
      (valueToken val, at_pos src (4 + L + 1 + 1 + 1 + M)) := by
    refine next_token_ws1 src (4 + L + 1 + 1) _ _ (getD_head_of_run src (4 + L + 1 + 1) 32 _ d3) ?_ ?_
    · rw [show src.getD (4 + L + 1 + 1 + 1) 0 = cv from getD_head_of_run src (4 + L + 1 + 1 + 1) cv
        (tv ++ [59]) (by rw [dv, hvct]; rfl)]
      exact hvws
    · have h := lex_value src (4 + L + 1 + 1 + 1) [59] val hcv dv (by rfl) (by rfl)
      rw [← hM] at h
      exact h
  have t5 : (at_pos src (4 + L + 1 + 1 + 1 + M)).next_token =
      (Token.new .Semicolon (bytes ";"), at_pos src (4 + L + 1 + 1 + 1 + M + 1)) := by
    refine next_token_semicolon src (4 + L + 1 + 1 + 1 + M) ?_
    have h := getD_of_run src (4 + L + 1 + 1 + 1) val.show [59] dv
    rw [← hM] at h
    simpa using h
  have t6 : (at_pos src (4 + L + 1 + 1 + 1 + M + 1)).next_token =
      (Token.new .Eof [], at_pos src (4 + L + 1 + 1 + 1 + M + 1 + 1)) :=
    next_token_at_end src _ (by omega)
  have t7 : (at_pos src (4 + L + 1 + 1 + 1 + M + 1 + 1)).next_token =
      (Token.new .Eof [], at_pos src (4 + L + 1 + 1 + 1 + M + 1 + 1 + 1)) :=
    next_token_at_end src _ (by omega)
  have hP0 : Parser.new (Lexer.new src) =
      Parser.mk (at_pos src (4 + L)) (Token.new .Let (bytes "let")) (Token.new .Ident n) := by
    rw [new_at_pos]
    exact Parser.new_eq _ _ _ _ _ t1 t2
  unfold parse_source
  rw [hP0]
  refine parse_program_single _ _
    (Parser.mk (at_pos src (4 + L + 1 + 1 + 1 + M + 1 + 1)) (Token.new .Semicolon (bytes ";"))
      (Token.new .Eof [])) ?_ ?_ ?_
  · simp [Token.new]
  · show parse_statement ((at_pos src (4 + L)).input.length + 2) _ = _
    rw [show (at_pos src (4 + L)).input.length + 2 = (4 + L + 1 + 1 + 1 + M + 1 + 1) + 1 from by
      rw [at_pos_input]; omega]
    have hdisp : parse_statement ((4 + L + 1 + 1 + 1 + M + 1 + 1) + 1)
        (Parser.mk (at_pos src (4 + L)) (Token.new .Let (bytes "let")) (Token.new .Ident n)) =
        parse_let_statement ((4 + L + 1 + 1 + 1 + M + 1 + 1) + 1)
        (Parser.mk (at_pos src (4 + L)) (Token.new .Let (bytes "let")) (Token.new .Ident n)) := by
      simp [parse_statement, Token.new]
    rw [hdisp]
    simp only [parse_let_statement]
    rw [Parser.next_token_eq _ _ _ _ _ t3]
    simp only [Token.new]
    rw [Parser.next_token_eq _ _ _ _ _ t4]
    rw [Parser.next_token_eq _ _ _ _ _ t5]
    rw [show (4 + L + 1 + 1 + 1 + M + 1 + 1) + 1 = (4 + L + 1 + 1 + 1 + M + 1 + 1) + 1 from rfl]
    rw [parse_value (4 + L + 1 + 1 + 1 + M + 1 + 1) (at_pos src (4 + L + 1 + 1 + 1 + M + 1))
      (Token.new .Semicolon (bytes ";")) val hcv]
    simp only [Token.new]
    rw [Parser.next_token_eq _ _ _ _ _ t6]
    simp [Token.new]
  · rw [Parser.next_token_eq _ _ _ _ _ t7]
    rfl

/-- Claim C1 (corrected): the round trip holds for every single-statement
program in canonical form without prefix expressions: rendering it with Show
and lexing and parsing the rendered text again succeeds and returns the
structurally identical Program. (The original claim fails for prefix
expressions, for consecutive expression statements, and for non-canonical
integer tokens; see the counterexample.) -/
theorem c1_roundtrip_canonical : ∀ s : Statement, canonicalStmt s = true →
    parse_source (Program.mk [s]).show = PRes.ok (Program.mk [s]) := by
  intro s h
  cases s with
  | Let ls =>
    obtain ⟨tok, nm, val⟩ := ls
    obtain ⟨n⟩ := nm
    simp only [canonicalStmt, Bool.and_eq_true, beq_iff_eq] at h
    obtain ⟨⟨htok, hvid⟩, hcv⟩ := h
    subst htok
    exact c1_case_let n val hvid hcv
  | Return rs =>
    obtain ⟨tok, val⟩ := rs
    simp only [canonicalStmt, Bool.and_eq_true, beq_iff_eq] at h
    obtain ⟨htok, hcv⟩ := h
    subst htok
    exact c1_case_return val hcv
  | Expression es =>
    obtain ⟨tok, e⟩ := es
    cases e with
    | Id id =>
      obtain ⟨n⟩ := id
      simp only [canonicalStmt, Bool.and_eq_true, beq_iff_eq] at h
      obtain ⟨hvid, htok⟩ := h
      subst htok
      have h2 := c1_case_expr (Expression.Id (Identifier.mk n))
        (by simpa [canonicalValue] using hvid)
      simpa [valueToken, Token.new] using h2
    | Integer i =>
      obtain ⟨v⟩ := i
      simp only [canonicalStmt, Bool.and_eq_true, beq_iff_eq, decide_eq_true_eq] at h
      obtain ⟨⟨h0, hmax⟩, htok⟩ := h
      subst htok
      have h2 := c1_case_expr (Expression.Integer (IntegerLiteral.mk v))
        (by simp [canonicalValue]; exact ⟨h0, hmax⟩)
      simpa [valueToken, Token.new] using h2
    | Lit l => simp [canonicalStmt] at h
    | Prefix o r => simp [canonicalStmt] at h

/-- Witness for claim C1: the canonical statement of the source
"let x = 5;" round-trips through show, lex and parse. -/
theorem c1_roundtrip_canonical_witness :
    canonicalStmt (Statement.Let (LetStatement.mk (Token.new .Let (bytes "let"))
      (Identifier.mk (bytes "x")) (Expression.Integer (IntegerLiteral.mk 5)))) = true ∧
    parse_source (Program.mk [Statement.Let (LetStatement.mk (Token.new .Let (bytes "let"))
      (Identifier.mk (bytes "x")) (Expression.Integer (IntegerLiteral.mk 5)))]).show =
      PRes.ok (Program.mk [Statement.Let (LetStatement.mk (Token.new .Let (bytes "let"))
        (Identifier.mk (bytes "x")) (Expression.Integer (IntegerLiteral.mk 5)))]) :=
  ⟨by decide, c1_roundtrip_canonical _ (by decide)⟩

/-- Counterexample for claim C1 as frozen, three independent failures.
First: "!5;" parses, renders as "(!5)", and re-parsing that fails because no
prefix parse function is registered for Lparen — so the round trip fails
precisely on the parenthesized prefix rendering the claim singles out.
Second: "5;6;" parses to two expression statements, but its rendering "56"
(expression statements render without their semicolon and Program
concatenates without separators) re-parses to the single literal 56.
Third: "007;" parses, but its rendering "7" re-parses to a structurally
different program (the stored Int token literal changes). -/
theorem c1_counterexample :
    (parse_source (bytes "!5;") = PRes.ok (Program.mk [Statement.Expression
        (ExpressionStatement.mk (Token.new TokenType.Int (bytes "5"))
          (Expression.Prefix (bytes "!") (Expression.Integer (IntegerLiteral.mk 5))))]) ∧
      (Program.mk [Statement.Expression
        (ExpressionStatement.mk (Token.new TokenType.Int (bytes "5"))
          (Expression.Prefix (bytes "!") (Expression.Integer (IntegerLiteral.mk 5))))]).show =
        bytes "(!5)" ∧
      parse_source (bytes "(!5)") =
        PRes.err (PError.noPrefixFn (Token.new TokenType.Lparen (bytes "(")))) ∧
    (parse_source (bytes "5;6;") = PRes.ok (Program.mk [
        Statement.Expression (ExpressionStatement.mk (Token.new TokenType.Int (bytes "5"))
          (Expression.Integer (IntegerLiteral.mk 5))),
        Statement.Expression (ExpressionStatement.mk (Token.new TokenType.Int (bytes "6"))
          (Expression.Integer (IntegerLiteral.mk 6)))]) ∧
      (Program.mk [
        Statement.Expression (ExpressionStatement.mk (Token.new TokenType.Int (bytes "5"))
          (Expression.Integer (IntegerLiteral.mk 5))),
        Statement.Expression (ExpressionStatement.mk (Token.new TokenType.Int (bytes "6"))
          (Expression.Integer (IntegerLiteral.mk 6)))]).show = bytes "56" ∧
      parse_source (bytes "56") = PRes.ok (Program.mk [
        Statement.Expression (ExpressionStatement.mk (Token.new TokenType.Int (bytes "56"))
          (Expression.Integer (IntegerLiteral.mk 56)))]) ∧
      Program.mk [
        Statement.Expression (ExpressionStatement.mk (Token.new TokenType.Int (bytes "56"))
          (Expression.Integer (IntegerLiteral.mk 56)))] ≠ Program.mk [
        Statement.Expression (ExpressionStatement.mk (Token.new TokenType.Int (bytes "5"))
          (Expression.Integer (IntegerLiteral.mk 5))),
        Statement.Expression (ExpressionStatement.mk (Token.new TokenType.Int (bytes "6"))
          (Expression.Integer (IntegerLiteral.mk 6)))]) ∧
    (parse_source (bytes "007;") = PRes.ok (Program.mk [
        Statement.Expression (ExpressionStatement.mk (Token.new TokenType.Int (bytes "007"))
          (Expression.Integer (IntegerLiteral.mk 7)))]) ∧
      (Program.mk [
        Statement.Expression (ExpressionStatement.mk (Token.new TokenType.Int (bytes "007"))
          (Expression.Integer (IntegerLiteral.mk 7)))]).show = bytes "7" ∧
      parse_source (bytes "7") = PRes.ok (Program.mk [
        Statement.Expression (ExpressionStatement.mk (Token.new TokenType.Int (bytes "7"))
          (Expression.Integer (IntegerLiteral.mk 7)))]) ∧
      Program.mk [
        Statement.Expression (ExpressionStatement.mk (Token.new TokenType.Int (bytes "7"))
          (Expression.Integer (IntegerLiteral.mk 7)))] ≠ Program.mk [
        Statement.Expression (ExpressionStatement.mk (Token.new TokenType.Int (bytes "007"))
          (Expression.Integer (IntegerLiteral.mk 7)))]) := by decide
